import Mathlib

set_option linter.unusedVariables false
set_option linter.unusedTactic false
set_option linter.unreachableTactic false

/-!
# Colour conversions of `ColorConversion.h`

A shallow embedding of the `colors` namespace of
`Sources/MetalComputeToolsSharedTypes/ColorConversion.h`.

The source is generic over a floating-point element type `T`.  The embedding is
generic over a linearly ordered field `α` (exact arithmetic): every definition is
computable, can be evaluated on `ℚ`, and every theorem holds in particular on `ℝ`.
The functions of `metal_stdlib` that are rational (`clamp`, `saturate`, `mix`,
`step`, `fract`, `abs`, `min`, `max`) are defined as the Metal Shading Language
defines them; the transcendental ones (`pow`, `tanh`) and the constant `M_PI_F`
are parameters of the functions that call them.

Two functions, `hue2rgb` and `hsl2rgb`, are also given with an explicit rounding
operator applied to the result of every arithmetic operation (`hue2rgbR`,
`hsl2rgbR`): with the identity they are the exact functions, and with
`roundBinary32` they are the instance at `T = float`.
-/

namespace colors

/-- Vector `vec<T, 3>`.  The source reads the components as `x, y, z` and as
`r, g, b`; both name the same three slots, in this order. -/
@[ext] structure Vec3 (α : Type) where
  x : α
  y : α
  z : α

/-- Vector `vec<T, 4>`, used by `rgb2hsv` only. -/
@[ext] structure Vec4 (α : Type) where
  x : α
  y : α
  z : α
  w : α

/-- Matrix `float3x3`, built from its three columns as `float3x3(c0, c1, c2)` is. -/
structure Mat3 (α : Type) where
  c0 : Vec3 α
  c1 : Vec3 α
  c2 : Vec3 α

section Stdlib

variable {α : Type} [LinearOrderedField α]

/-- Scalar `clamp(x, minval, maxval)`: `min(max(x, minval), maxval)`. -/
def clamp (x lo hi : α) : α := min (max x lo) hi

/-- Scalar `saturate(x)`: `clamp(x, 0, 1)`. -/
def saturate (x : α) : α := clamp x 0 1

/-- Scalar `mix(x, y, a)`: `x + (y - x) * a`. -/
def mix (x y a : α) : α := x + (y - x) * a

/-- Scalar `step(edge, x)`: `0` when `x < edge`, else `1`. -/
def step (edge x : α) : α := if x < edge then 0 else 1

/-- Scalar `fract(x)`: `x - floor(x)`. -/
def fract [FloorRing α] (x : α) : α := x - (⌊x⌋ : α)

/-- Component-wise `saturate` on a 3-vector. -/
def Vec3.saturate (c : Vec3 α) : Vec3 α := ⟨colors.saturate c.x, colors.saturate c.y, colors.saturate c.z⟩

/-- Component-wise `clamp(c, lo, hi)` on a 3-vector with scalar bounds. -/
def Vec3.clamp (c : Vec3 α) (lo hi : α) : Vec3 α :=
  ⟨colors.clamp c.x lo hi, colors.clamp c.y lo hi, colors.clamp c.z lo hi⟩

/-- Membership of a triple in the unit cube `[0,1]^3`. -/
def Vec3.InUnit (c : Vec3 α) : Prop :=
  (0 ≤ c.x ∧ c.x ≤ 1) ∧ (0 ≤ c.y ∧ c.y ≤ 1) ∧ (0 ≤ c.z ∧ c.z ≤ 1)

/-- Component-wise `mix` of two 4-vectors with a scalar weight. -/
def Vec4.mix (u v : Vec4 α) (a : α) : Vec4 α :=
  ⟨colors.mix u.x v.x a, colors.mix u.y v.y a, colors.mix u.z v.z a, colors.mix u.w v.w a⟩

/-- Dot product of two 3-vectors. -/
def Vec3.dot (u v : Vec3 α) : α := u.x * v.x + u.y * v.y + u.z * v.z

/-- Product `v * m` of a vector and a matrix: the vector is a row vector, and component `i`
of the result is the dot product of `v` with column `i` of `m`. -/
def Vec3.mulMat (v : Vec3 α) (m : Mat3 α) : Vec3 α := ⟨v.dot m.c0, v.dot m.c1, v.dot m.c2⟩

/-- Product `k * v` of a scalar and a vector. -/
def Vec3.scale (k : α) (v : Vec3 α) : Vec3 α := ⟨k * v.x, k * v.y, k * v.z⟩

/-- Quotient `v / k` of a vector by a scalar. -/
def Vec3.divScalar (v : Vec3 α) (k : α) : Vec3 α := ⟨v.x / k, v.y / k, v.z / k⟩

end Stdlib

section Conversions

variable {α : Type} [LinearOrderedField α]

/-- Source `hue2rgb(p, q, t)`. -/
def hue2rgb (p q t : α) : α :=
  let t := if t < 0 then t + 1 else t
  let t := if t > 1 then t - 1 else t
  if t < 1 / 6 then p + (q - p) * 6 * t
  else if t < 1 / 2 then q
  else if t < 2 / 3 then p + (q - p) * (2 / 3 - t) * 6
  else p

/-- The value `MIN` of `rgb2hsl`: the smallest component of the saturated input. -/
def rgb2hslMIN (inputColor : Vec3 α) : α :=
  let color := inputColor.saturate
  min color.x (min color.y color.z)

/-- The value `MAX` of `rgb2hsl` after the statement `MAX = max(MIN + T(1e-6), MAX)`. -/
def rgb2hslMAX (inputColor : Vec3 α) : α :=
  let color := inputColor.saturate
  max (rgb2hslMIN inputColor + 1e-6) (max color.x (max color.y color.z))

/-- The luminosity `l` of `rgb2hsl`. -/
def rgb2hslL (inputColor : Vec3 α) : α :=
  (rgb2hslMIN inputColor + rgb2hslMAX inputColor) / 2

/-- The divisor that `rgb2hsl` evaluates for the saturation: `MIN + MAX` in the branch
`l < 0.5`, else `2 - MAX - MIN`. -/
def rgb2hslSatDivisor (inputColor : Vec3 α) : α :=
  if rgb2hslL inputColor < 0.5 then rgb2hslMIN inputColor + rgb2hslMAX inputColor
  else 2 - rgb2hslMAX inputColor - rgb2hslMIN inputColor

/-- The divisor `MAX - MIN` that `rgb2hsl` evaluates for the hue. -/
def rgb2hslHueDivisor (inputColor : Vec3 α) : α :=
  rgb2hslMAX inputColor - rgb2hslMIN inputColor

/-- Source `rgb2hsl(inputColor)`. -/
def rgb2hsl (inputColor : Vec3 α) : Vec3 α :=
  let color := inputColor.saturate
  let MAX := rgb2hslMAX inputColor
  let MIN := rgb2hslMIN inputColor
  let l := rgb2hslL inputColor
  let s := if l < 0.5 then (MAX - MIN) / (MIN + MAX) else (MAX - MIN) / (2 - MAX - MIN)
  let h := if MAX = color.x then (color.y - color.z) / (MAX - MIN)
           else if MAX = color.y then 2 + (color.z - color.x) / (MAX - MIN)
           else 4 + (color.x - color.y) / (MAX - MIN)
  let h := h / 6
  let h := if h < 0 then 1 + h else h
  ⟨h, s, l⟩

/-- Source `hsl2rgb(inputColor)`. -/
def hsl2rgb (inputColor : Vec3 α) : Vec3 α :=
  let color := inputColor.saturate
  let h := color.x
  let s := color.y
  let l := color.z
  if s ≤ 0 then ⟨l, l, l⟩
  else
    let q := if l < 0.5 then l * (1 + s) else l + s - l * s
    let p := 2 * l - q
    ⟨hue2rgb p q (h + 1 / 3), hue2rgb p q h, hue2rgb p q (h - 1 / 3)⟩

/-- Source `rgb2hsv(c)`. -/
def rgb2hsv (c : Vec3 α) : Vec3 α :=
  let K : Vec4 α := ⟨0, -1 / 3, 2 / 3, -1⟩
  let p := Vec4.mix ⟨c.z, c.y, K.w, K.z⟩ ⟨c.y, c.z, K.x, K.y⟩ (step c.z c.y)
  let q := Vec4.mix ⟨p.x, p.y, p.w, c.x⟩ ⟨c.x, p.y, p.z, p.x⟩ (step p.x c.x)
  let d := q.x - min q.w q.y
  let e : α := 1.0e-10
  ⟨|q.z + (q.w - q.y) / (6 * d + e)|, d / (q.x + e), q.x⟩

/-- Source `hsv2rgb(c)`. -/
def hsv2rgb [FloorRing α] (c : Vec3 α) : Vec3 α :=
  let K : Vec4 α := ⟨1, 2 / 3, 1 / 3, 3⟩
  let p : Vec3 α :=
    ⟨|fract (c.x + K.x) * 6 - K.w|, |fract (c.x + K.y) * 6 - K.w|, |fract (c.x + K.z) * 6 - K.w|⟩
  ⟨c.z * mix K.x (clamp (p.x - K.x) 0 1) c.y,
   c.z * mix K.x (clamp (p.y - K.x) 0 1) c.y,
   c.z * mix K.x (clamp (p.z - K.x) 0 1) c.y⟩

/-- Source `rgb2xyz(c)`, with the library function `pow` as a parameter.  The matrix is built
from the three `float3` of the source as its columns, and `tmp * mat` is the product of the row
vector `tmp` with it. -/
def rgb2xyz (pow : α → α → α) (c : Vec3 α) : Vec3 α :=
  let tmp : Vec3 α :=
    ⟨if c.x > 0.04045 then pow ((c.x + 0.055) / 1.055) 2.4 else c.x / 12.92,
     if c.y > 0.04045 then pow ((c.y + 0.055) / 1.055) 2.4 else c.y / 12.92,
     if c.z > 0.04045 then pow ((c.z + 0.055) / 1.055) 2.4 else c.z / 12.92⟩
  let mat : Mat3 α :=
    ⟨⟨0.4124, 0.3576, 0.1805⟩,
     ⟨0.2126, 0.7152, 0.0722⟩,
     ⟨0.0193, 0.1192, 0.9505⟩⟩
  Vec3.scale 100 (tmp.mulMat mat)

/-- Source `xyz2rgb(c)`, with the library function `pow` as a parameter. -/
def xyz2rgb (pow : α → α → α) (c : Vec3 α) : Vec3 α :=
  let mat : Mat3 α :=
    ⟨⟨3.2406, -1.5372, -0.4986⟩,
     ⟨-0.9689, 1.8758, 0.0415⟩,
     ⟨0.0557, -0.2040, 1.0570⟩⟩
  let v := (c.divScalar 100).mulMat mat
  ⟨if v.x > 0.0031308 then 1.055 * pow v.x (1.0 / 2.4) - 0.055 else 12.92 * v.x,
   if v.y > 0.0031308 then 1.055 * pow v.y (1.0 / 2.4) - 0.055 else 12.92 * v.y,
   if v.z > 0.0031308 then 1.055 * pow v.z (1.0 / 2.4) - 0.055 else 12.92 * v.z⟩

/-- Source `clipLab(color)`. -/
def clipLab (color : Vec3 α) : Vec3 α :=
  ⟨clamp color.x 0 1, clamp color.y (-127) 127, clamp color.z (-127) 127⟩

/-- Source `contrastLabColor(labColor, value)`, with the library functions `tanh` and `pow` and
the constant `M_PI_F` (here `pi`) as parameters. -/
def contrastLabColor (tanh : α → α) (pow : α → α → α) (pi : α) (labColor : Vec3 α) (value : α) :
    Vec3 α :=
  let value := value * (if value > 0 then 1.0 else 0.6)
  let newLuminance := ((tanh (labColor.x * pi * 2 - pi) + 1) / 2 + labColor.x) / 2
  let luminanceDifference := newLuminance - labColor.x
  let r := labColor.x + luminanceDifference * value
  let colorMultiplierPower := if value > 0 then 2 * (0.25 - pow (r - 0.5) 2) else 0.35
  let colorMultiplier := 1 + value * colorMultiplierPower
  clipLab ⟨r, labColor.y * colorMultiplier, labColor.z * colorMultiplier⟩

/-- Source `exposeLabColor(labColor, value)`, with the library function `pow` as a parameter. -/
def exposeLabColor (pow : α → α → α) (labColor : Vec3 α) (value : α) : Vec3 α :=
  let newLuminance := if value > 0 then 1 - pow (1 - labColor.x) 2.8
                      else pow labColor.x 1.5 * 0.7
  let r := labColor.x + (newLuminance - labColor.x) * |value|
  let rate := if value > 0 then (pow r 3.0 - 0.5) * 2 else (r - 0.8) * 0.1
  let colorMultiplier := max 0.0 (1 - rate * value)
  clipLab ⟨r, labColor.y * colorMultiplier, labColor.z * colorMultiplier⟩

/-- The per-channel transfer that `rgb2xyz` applies before the matrix (the source writes it out
once per channel). -/
def srgbToLinear (pow : α → α → α) (x : α) : α :=
  if x > 0.04045 then pow ((x + 0.055) / 1.055) 2.4 else x / 12.92

/-- The per-channel transfer that `xyz2rgb` applies after the matrix (the source writes it out
once per channel). -/
def linearToSrgb (pow : α → α → α) (v : α) : α :=
  if v > 0.0031308 then 1.055 * pow v (1.0 / 2.4) - 0.055 else 12.92 * v

/-- The vector `tmp` of `rgb2xyz`: the linearised channels. -/
def rgb2xyzTmp (pow : α → α → α) (c : Vec3 α) : Vec3 α :=
  ⟨srgbToLinear pow c.x, srgbToLinear pow c.y, srgbToLinear pow c.z⟩

/-- The vector `v` of `xyz2rgb`: the input divided by 100 and multiplied by the matrix. -/
def xyz2rgbV (c : Vec3 α) : Vec3 α :=
  (c.divScalar 100).mulMat
    ⟨⟨3.2406, -1.5372, -0.4986⟩, ⟨-0.9689, 1.8758, 0.0415⟩, ⟨0.0557, -0.2040, 1.0570⟩⟩

/-- Source `xyz2lab(c)`, with the library function `pow` as a parameter. -/
def xyz2lab (pow : α → α → α) (c : Vec3 α) : Vec3 α :=
  let n : Vec3 α := ⟨c.x / 95.047, c.y / 100, c.z / 108.883⟩
  let v : Vec3 α :=
    ⟨if n.x > 0.008856 then pow n.x (1.0 / 3.0) else 7.787 * n.x + 16.0 / 116.0,
     if n.y > 0.008856 then pow n.y (1.0 / 3.0) else 7.787 * n.y + 16.0 / 116.0,
     if n.z > 0.008856 then pow n.z (1.0 / 3.0) else 7.787 * n.z + 16.0 / 116.0⟩
  ⟨116.0 * v.y - 16.0, 500.0 * (v.x - v.y), 200.0 * (v.y - v.z)⟩

/-- Source `rgb2lab(c)`, with the library function `pow` as a parameter. -/
def rgb2lab (pow : α → α → α) (c : Vec3 α) : Vec3 α :=
  let lab := xyz2lab pow (rgb2xyz pow c)
  ⟨lab.x / 100.0, 0.5 + 0.5 * (lab.y / 127.0), 0.5 + 0.5 * (lab.z / 127.0)⟩

/-- Source `lab2xyz(c)`. -/
def lab2xyz (c : Vec3 α) : Vec3 α :=
  let fy := (c.x + 16.0) / 116.0
  let fx := c.y / 500.0 + fy
  let fz := fy - c.z / 200.0
  ⟨95.047 * (if fx > 0.206897 then fx * fx * fx else (fx - 16.0 / 116.0) / 7.787),
   100.000 * (if fy > 0.206897 then fy * fy * fy else (fy - 16.0 / 116.0) / 7.787),
   108.883 * (if fz > 0.206897 then fz * fz * fz else (fz - 16.0 / 116.0) / 7.787)⟩

/-- Source `lab2rgb(c)`, with the library function `pow` as a parameter. -/
def lab2rgb (pow : α → α → α) (c : Vec3 α) : Vec3 α :=
  xyz2rgb pow (lab2xyz ⟨100.0 * c.x, 2.0 * 127.0 * (c.y - 0.5), 2.0 * 127.0 * (c.z - 0.5)⟩)

/-- Source `denormalizeLab(labColor)`. -/
def denormalizeLab (labColor : Vec3 α) : Vec3 α :=
  ⟨labColor.x, (labColor.y - 0.5) * 255, (labColor.z - 0.5) * 255⟩

/-- Source `normalizeLab(labColor)`. -/
def normalizeLab (labColor : Vec3 α) : Vec3 α :=
  ⟨labColor.x, labColor.y / 255 + 0.5, labColor.z / 255 + 0.5⟩

/-- The formula that the specification states for `rgb2xyz`, in its words: 100 times the row
vector of linearised channels times the matrix whose rows are the three triples, that is
`X = 100 * (0.4124 R + 0.2126 G + 0.0193 B)` and so on.  Kept for comparison with `rgb2xyz`. -/
def rgb2xyzSpec (pow : α → α → α) (c : Vec3 α) : Vec3 α :=
  let R := srgbToLinear pow c.x
  let G := srgbToLinear pow c.y
  let B := srgbToLinear pow c.z
  ⟨100 * (0.4124 * R + 0.2126 * G + 0.0193 * B),
   100 * (0.3576 * R + 0.7152 * G + 0.1192 * B),
   100 * (0.1805 * R + 0.0722 * G + 0.9505 * B)⟩

/-- The chroma multiplier `m` that the specification states for `contrastLabColor`, in its
words: `m = 1 + v' * k` with `v' = v * (1 if v > 0 else 0.6)` and
`k = 2 * (0.25 - (L1 - 0.5)^2) if v > 0 else 0.35`, where `L1 = L + (L_new - L) * v'` is the
luminance after the contrast update and `L_new = ((tanh(L * 2π - π) + 1) / 2 + L) / 2`. -/
def contrastMultiplierSpec (tanh : α → α) (pi : α) (L v : α) : α :=
  let v' := v * (if v > 0 then 1 else 0.6)
  let Lnew := ((tanh (L * 2 * pi - pi) + 1) / 2 + L) / 2
  let L1 := L + (Lnew - L) * v'
  let k := if v > 0 then 2 * (0.25 - (L1 - 0.5) ^ 2) else 0.35
  1 + v' * k

/-- Source `hue2rgb(p, q, t)` with the result of every arithmetic operation passed through a
rounding operator `rnd`, in the evaluation order of the source: `T(1.0)/T(6.0)` is `rnd (1 / 6)`,
`p + (q - p) * T(6.0) * t` is `rnd (p + rnd (rnd (rnd (q - p) * 6) * t))`, and so on.  The
literals `0`, `1`, `6` and the comparisons are exact.  With `rnd = id` this is `hue2rgb`; with
`rnd = roundBinary32` it is the instance at `T = float`. -/
def hue2rgbR (rnd : α → α) (p q t : α) : α :=
  let t := if t < 0 then rnd (t + 1) else t
  let t := if t > 1 then rnd (t - 1) else t
  if t < rnd (1 / 6) then rnd (p + rnd (rnd (rnd (q - p) * 6) * t))
  else if t < rnd (1 / 2) then q
  else if t < rnd (2 / 3) then rnd (p + rnd (rnd (rnd (q - p) * rnd (rnd (2 / 3) - t)) * 6))
  else p

/-- Source `hsl2rgb(inputColor)` with the result of every arithmetic operation passed through a
rounding operator `rnd`, in the evaluation order of the source (`saturate`, a `min` of a `max`,
does not round).  With `rnd = id` this is `hsl2rgb`. -/
def hsl2rgbR (rnd : α → α) (inputColor : Vec3 α) : Vec3 α :=
  let color := inputColor.saturate
  let h := color.x
  let s := color.y
  let l := color.z
  if s ≤ 0 then ⟨l, l, l⟩
  else
    let q := if l < 0.5 then rnd (l * rnd (1 + s)) else rnd (rnd (l + s) - rnd (l * s))
    let p := rnd (rnd (2 * l) - q)
    ⟨hue2rgbR rnd p q (rnd (h + rnd (1 / 3))), hue2rgbR rnd p q h,
      hue2rgbR rnd p q (rnd (h - rnd (1 / 3)))⟩

end Conversions

section Lemmas

variable {α : Type} [LinearOrderedField α]

theorem saturate_nonneg (x : α) : 0 ≤ saturate x := by
  unfold saturate clamp
  exact le_min (le_max_right _ _) zero_le_one

theorem saturate_le_one (x : α) : saturate x ≤ 1 := by
  unfold saturate clamp
  exact min_le_right _ _

theorem saturate_of_mem {x : α} (h0 : 0 ≤ x) (h1 : x ≤ 1) : saturate x = x := by
  unfold saturate clamp
  rw [max_eq_left h0, min_eq_left h1]

theorem saturate_idem (x : α) : saturate (saturate x) = saturate x :=
  saturate_of_mem (saturate_nonneg x) (saturate_le_one x)

theorem Vec3.saturate_twice (c : Vec3 α) : c.saturate.saturate = c.saturate := by
  simp [Vec3.saturate, saturate_idem]

theorem Vec3.clamp_zero_one (c : Vec3 α) : c.clamp 0 1 = c.saturate := rfl

theorem Vec3.saturate_of_inUnit {c : Vec3 α} (hc : c.InUnit) : c.saturate = c := by
  obtain ⟨⟨a0, a1⟩, ⟨b0, b1⟩, ⟨c0, c1⟩⟩ := hc
  ext <;> simp [Vec3.saturate, saturate_of_mem, *]

theorem Vec3.saturate_inUnit (c : Vec3 α) : c.saturate.InUnit :=
  ⟨⟨saturate_nonneg _, saturate_le_one _⟩, ⟨saturate_nonneg _, saturate_le_one _⟩,
    ⟨saturate_nonneg _, saturate_le_one _⟩⟩

theorem eps_pos : (0 : α) < 1e-6 := by norm_num

/-- Bounds on `MIN` and the raised `MAX` of `rgb2hsl`, for the saturated colour. -/
theorem rgb2hsl_min_max (c : Vec3 α) :
    0 ≤ rgb2hslMIN c ∧ rgb2hslMIN c ≤ 1 ∧
    rgb2hslMIN c ≤ c.saturate.x ∧ rgb2hslMIN c ≤ c.saturate.y ∧ rgb2hslMIN c ≤ c.saturate.z ∧
    c.saturate.x ≤ rgb2hslMAX c ∧ c.saturate.y ≤ rgb2hslMAX c ∧ c.saturate.z ≤ rgb2hslMAX c ∧
    rgb2hslMIN c + 1e-6 ≤ rgb2hslMAX c ∧
    (rgb2hslMAX c ≤ 1 ∨ rgb2hslMAX c = rgb2hslMIN c + 1e-6) ∧
    (rgb2hslMIN c = c.saturate.x ∨ rgb2hslMIN c = c.saturate.y ∨ rgb2hslMIN c = c.saturate.z) ∧
    (rgb2hslMAX c = rgb2hslMIN c + 1e-6 ∨ rgb2hslMAX c = c.saturate.x ∨
      rgb2hslMAX c = c.saturate.y ∨ rgb2hslMAX c = c.saturate.z) := by
  obtain ⟨⟨a0, a1⟩, ⟨b0, b1⟩, ⟨c0, c1⟩⟩ := c.saturate_inUnit
  simp only [rgb2hslMAX, rgb2hslMIN]
  generalize c.saturate.x = r at *
  generalize c.saturate.y = g at *
  generalize c.saturate.z = b at *
  refine ⟨le_min a0 (le_min b0 c0), (min_le_left _ _).trans a1, min_le_left _ _,
    (min_le_right _ _).trans (min_le_left _ _), (min_le_right _ _).trans (min_le_right _ _),
    le_max_of_le_right (le_max_left _ _), le_max_of_le_right (le_max_of_le_right (le_max_left _ _)),
    le_max_of_le_right (le_max_of_le_right (le_max_right _ _)), le_max_left _ _, ?_, ?_, ?_⟩
  · rcases le_total (min r (min g b) + 1e-6) (max r (max g b)) with h | h
    · left; rw [max_eq_right h]; exact max_le a1 (max_le b1 c1)
    · right; rw [max_eq_left h]
  · rcases le_total r (min g b) with h | h
    · left; exact min_eq_left h
    · rw [min_eq_right h]; rcases le_total g b with h2 | h2
      · right; left; exact min_eq_left h2
      · right; right; exact min_eq_right h2
  · rcases le_total (min r (min g b) + 1e-6) (max r (max g b)) with h | h
    · right; rw [max_eq_right h]
      rcases le_total r (max g b) with h1 | h1
      · rw [max_eq_right h1]; right
        rcases le_total g b with h2 | h2
        · right; exact max_eq_right h2
        · left; exact max_eq_left h2
      · left; exact max_eq_left h1
    · left; exact max_eq_left h

theorem rgb2hslMIN_saturate (c : Vec3 α) : rgb2hslMIN c.saturate = rgb2hslMIN c := by
  simp only [rgb2hslMIN, Vec3.saturate_twice]

theorem rgb2hslMAX_saturate (c : Vec3 α) : rgb2hslMAX c.saturate = rgb2hslMAX c := by
  simp only [rgb2hslMAX, rgb2hslMIN_saturate, Vec3.saturate_twice]

theorem rgb2hslL_saturate (c : Vec3 α) : rgb2hslL c.saturate = rgb2hslL c := by
  simp only [rgb2hslL, rgb2hslMIN_saturate, rgb2hslMAX_saturate]

/-- A difference of two values of `[m, M]` divided by `M - m` lies in `[-1, 1]`. -/
theorem quot_mem {m M a b : α} (hd : m < M) (ha : m ≤ a) (ha' : a ≤ M) (hb : m ≤ b)
    (hb' : b ≤ M) : -1 ≤ (a - b) / (M - m) ∧ (a - b) / (M - m) ≤ 1 := by
  have hd' : 0 < M - m := sub_pos.mpr hd
  constructor
  · rw [le_div_iff₀ hd']; linarith
  · rw [div_le_one hd']; linarith

theorem rgb2hsl_x (c : Vec3 α) : (rgb2hsl c).x =
    (if (if rgb2hslMAX c = c.saturate.x then
            (c.saturate.y - c.saturate.z) / (rgb2hslMAX c - rgb2hslMIN c)
          else if rgb2hslMAX c = c.saturate.y then
            2 + (c.saturate.z - c.saturate.x) / (rgb2hslMAX c - rgb2hslMIN c)
          else 4 + (c.saturate.x - c.saturate.y) / (rgb2hslMAX c - rgb2hslMIN c)) / 6 < 0
     then 1 + (if rgb2hslMAX c = c.saturate.x then
            (c.saturate.y - c.saturate.z) / (rgb2hslMAX c - rgb2hslMIN c)
          else if rgb2hslMAX c = c.saturate.y then
            2 + (c.saturate.z - c.saturate.x) / (rgb2hslMAX c - rgb2hslMIN c)
          else 4 + (c.saturate.x - c.saturate.y) / (rgb2hslMAX c - rgb2hslMIN c)) / 6
     else (if rgb2hslMAX c = c.saturate.x then
            (c.saturate.y - c.saturate.z) / (rgb2hslMAX c - rgb2hslMIN c)
          else if rgb2hslMAX c = c.saturate.y then
            2 + (c.saturate.z - c.saturate.x) / (rgb2hslMAX c - rgb2hslMIN c)
          else 4 + (c.saturate.x - c.saturate.y) / (rgb2hslMAX c - rgb2hslMIN c)) / 6) := rfl

theorem rgb2hsl_y (c : Vec3 α) : (rgb2hsl c).y =
    if rgb2hslL c < 0.5 then (rgb2hslMAX c - rgb2hslMIN c) / (rgb2hslMIN c + rgb2hslMAX c)
    else (rgb2hslMAX c - rgb2hslMIN c) / (2 - rgb2hslMAX c - rgb2hslMIN c) := rfl

theorem rgb2hsl_z (c : Vec3 α) : (rgb2hsl c).z = rgb2hslL c := rfl

theorem rgb2hsl_y_eq_div (c : Vec3 α) :
    (rgb2hsl c).y = rgb2hslHueDivisor c / rgb2hslSatDivisor c := by
  rw [rgb2hsl_y, rgb2hslHueDivisor, rgb2hslSatDivisor]
  split_ifs <;> rfl

theorem rgb2hsl_hue_mem (c : Vec3 α) : 0 ≤ (rgb2hsl c).x ∧ (rgb2hsl c).x ≤ 1 := by
  obtain ⟨m0, m1, mx, my, mz, xM, yM, zM, hd, -, -, -⟩ := rgb2hsl_min_max c
  have hlt : rgb2hslMIN c < rgb2hslMAX c := lt_of_lt_of_le (by linarith [eps_pos (α := α)]) hd
  have h1 := quot_mem hlt my yM mz zM
  have h2 := quot_mem hlt mz zM mx xM
  have h3 := quot_mem hlt mx xM my yM
  rw [rgb2hsl_x]
  split_ifs <;> constructor <;> linarith [h1.1, h1.2, h2.1, h2.2, h3.1, h3.2]

theorem rgb2hsl_sl_mem (c : Vec3 α) (hM : rgb2hslMAX c ≤ 1) :
    (0 < (rgb2hsl c).y ∧ (rgb2hsl c).y ≤ 1) ∧ (0 < (rgb2hsl c).z ∧ (rgb2hsl c).z < 1) := by
  obtain ⟨m0, m1, mx, my, mz, xM, yM, zM, hd, -, -, -⟩ := rgb2hsl_min_max c
  have he := eps_pos (α := α)
  rw [rgb2hsl_y, rgb2hsl_z, rgb2hslL]
  refine ⟨?_, by constructor <;> linarith⟩
  split_ifs with hl
  · have hpos : 0 < rgb2hslMIN c + rgb2hslMAX c := by linarith
    exact ⟨div_pos (by linarith) hpos, by rw [div_le_one hpos]; linarith⟩
  · have hpos : 0 < 2 - rgb2hslMAX c - rgb2hslMIN c := by linarith
    exact ⟨div_pos (by linarith) hpos, by rw [div_le_one hpos]; linarith⟩

/-- When the raised `MAX` does not exceed 1, `hsl2rgb` rebuilds each channel of
`rgb2hsl c` by `hue2rgb` with `p = MIN` and `q = MAX`. -/
theorem hsl2rgb_rgb2hsl_of_le (c : Vec3 α) (hM : rgb2hslMAX c ≤ 1) :
    hsl2rgb (rgb2hsl c) =
      ⟨hue2rgb (rgb2hslMIN c) (rgb2hslMAX c) ((rgb2hsl c).x + 1 / 3),
       hue2rgb (rgb2hslMIN c) (rgb2hslMAX c) (rgb2hsl c).x,
       hue2rgb (rgb2hslMIN c) (rgb2hslMAX c) ((rgb2hsl c).x - 1 / 3)⟩ := by
  obtain ⟨m0, m1, mx, my, mz, xM, yM, zM, hd, -, -, -⟩ := rgb2hsl_min_max c
  have he := eps_pos (α := α)
  obtain ⟨⟨s0, s1⟩, ⟨l0, l1⟩⟩ := rgb2hsl_sl_mem c hM
  obtain ⟨h0, h1⟩ := rgb2hsl_hue_mem c
  have hsat : (rgb2hsl c).saturate = rgb2hsl c := by
    apply Vec3.saturate_of_inUnit
    exact ⟨⟨h0, h1⟩, ⟨s0.le, s1⟩, ⟨l0.le, l1.le⟩⟩
  have hq : (if (rgb2hsl c).z < 0.5 then (rgb2hsl c).z * (1 + (rgb2hsl c).y)
      else (rgb2hsl c).z + (rgb2hsl c).y - (rgb2hsl c).z * (rgb2hsl c).y) = rgb2hslMAX c := by
    rw [rgb2hsl_y, rgb2hsl_z]
    split_ifs with hl
    · rw [rgb2hslL] at hl ⊢
      have hpos : rgb2hslMIN c + rgb2hslMAX c ≠ 0 := by
        have : 0 < rgb2hslMIN c + rgb2hslMAX c := by linarith
        exact this.ne'
      field_simp; ring
    · rw [rgb2hslL] at hl ⊢
      have hpos : 2 - rgb2hslMAX c - rgb2hslMIN c ≠ 0 := by
        have : 0 < 2 - rgb2hslMAX c - rgb2hslMIN c := by linarith
        exact this.ne'
      field_simp; ring
  have hp : 2 * (rgb2hsl c).z - rgb2hslMAX c = rgb2hslMIN c := by
    rw [rgb2hsl_z, rgb2hslL]; ring
  unfold hsl2rgb
  simp only [hsat, hq, hp, if_neg (not_le.mpr s0)]

/-- The piecewise formula of `hue2rgb` at the wrapped phase `t'`. -/
theorem hue2rgb_of_wrap {p q t t' : α}
    (h : (if (if t < 0 then t + 1 else t) > 1 then (if t < 0 then t + 1 else t) - 1
          else (if t < 0 then t + 1 else t)) = t') :
    hue2rgb p q t =
      if t' < 1 / 6 then p + (q - p) * 6 * t'
      else if t' < 1 / 2 then q
      else if t' < 2 / 3 then p + (q - p) * (2 / 3 - t') * 6
      else p := by
  subst h; rfl

/-- A phase in `[0, 1]` is not wrapped. -/
theorem hue2rgb_mid {p q t : α} (h0 : 0 ≤ t) (h1 : t ≤ 1) :
    hue2rgb p q t =
      if t < 1 / 6 then p + (q - p) * 6 * t
      else if t < 1 / 2 then q
      else if t < 2 / 3 then p + (q - p) * (2 / 3 - t) * 6
      else p :=
  hue2rgb_of_wrap (by rw [if_neg (not_lt.mpr h0), if_neg (not_lt.mpr h1)])

/-- A phase in `[-1, 0)` is wrapped to `t + 1`. -/
theorem hue2rgb_low {p q t : α} (h0 : t < 0) :
    hue2rgb p q t =
      if t + 1 < 1 / 6 then p + (q - p) * 6 * (t + 1)
      else if t + 1 < 1 / 2 then q
      else if t + 1 < 2 / 3 then p + (q - p) * (2 / 3 - (t + 1)) * 6
      else p :=
  hue2rgb_of_wrap (by rw [if_pos h0, if_neg (by linarith)])

/-- A phase in `(1, 2]` is wrapped to `t - 1`. -/
theorem hue2rgb_high {p q t : α} (h0 : 1 < t) :
    hue2rgb p q t =
      if t - 1 < 1 / 6 then p + (q - p) * 6 * (t - 1)
      else if t - 1 < 1 / 2 then q
      else if t - 1 < 2 / 3 then p + (q - p) * (2 / 3 - (t - 1)) * 6
      else p :=
  hue2rgb_of_wrap (by
    simp only [if_neg (show ¬ t < 0 by linarith), if_pos (show t > 1 from h0)])

theorem lin_mem {p q s : α} (hpq : p ≤ q) (h0 : 0 ≤ s) (h1 : s ≤ 1) :
    p ≤ p + (q - p) * s ∧ p + (q - p) * s ≤ q := by
  have hd : 0 ≤ q - p := sub_nonneg.mpr hpq
  constructor
  · nlinarith [mul_nonneg hd h0]
  · nlinarith [mul_nonneg hd (sub_nonneg.mpr h1)]

theorem hue2rgb_wrapped_mem {p q t : α} (hpq : p ≤ q) (h0 : 0 ≤ t) :
    p ≤ (if t < 1 / 6 then p + (q - p) * 6 * t
      else if t < 1 / 2 then q
      else if t < 2 / 3 then p + (q - p) * (2 / 3 - t) * 6
      else p) ∧
    (if t < 1 / 6 then p + (q - p) * 6 * t
      else if t < 1 / 2 then q
      else if t < 2 / 3 then p + (q - p) * (2 / 3 - t) * 6
      else p) ≤ q := by
  split_ifs with h1 h2 h3
  · have := lin_mem hpq (s := 6 * t) (by linarith) (by linarith)
    rw [mul_assoc]; exact this
  · exact ⟨hpq, le_refl _⟩
  · have := lin_mem hpq (s := (2 / 3 - t) * 6) (by linarith) (by linarith)
    rw [mul_assoc]; exact this
  · exact ⟨le_refl _, hpq⟩

/-- For `p ≤ q` and a phase `t` in `[-1, 2]`, `hue2rgb p q t` lies between `p` and `q`. -/
theorem hue2rgb_mem {p q t : α} (hpq : p ≤ q) (ht0 : -1 ≤ t) :
    p ≤ hue2rgb p q t ∧ hue2rgb p q t ≤ q := by
  rcases lt_or_le t 0 with h | h
  · rw [hue2rgb_low h]; exact hue2rgb_wrapped_mem hpq (by linarith)
  · rcases le_or_lt t 1 with h' | h'
    · rw [hue2rgb_mid h h']; exact hue2rgb_wrapped_mem hpq h
    · rw [hue2rgb_high h']; exact hue2rgb_wrapped_mem hpq (by linarith)

/-- Sector of hue `u/6`: red is the maximum, blue the minimum. -/
theorem hue_sector_r_pos {m M u : α} (hd : m < M) (hu0 : 0 ≤ u) (hu1 : u ≤ 1) :
    hue2rgb m M (u / 6 + 1 / 3) = M ∧ hue2rgb m M (u / 6) = m + u * (M - m) ∧
      hue2rgb m M (u / 6 - 1 / 3) = m := by
  refine ⟨?_, ?_, ?_⟩
  · rw [hue2rgb_mid (by linarith) (by linarith)]
    split_ifs <;>
      first
      | rfl
      | linarith
      | ring1
      | (have hu : u = 1 := by linarith
         subst hu; ring1)
  · rw [hue2rgb_mid (by linarith) (by linarith)]
    split_ifs <;>
      first
      | rfl
      | linarith
      | ring1
      | (have hu : u = 1 := by linarith
         subst hu; ring1)
  · rw [hue2rgb_low (by linarith)]
    split_ifs <;>
      first
      | rfl
      | linarith
      | ring1
      | (have hu : u = 1 := by linarith
         subst hu; ring1)

/-- Sector of hue `1 - u/6`: red is the maximum, green the minimum. -/
theorem hue_sector_r_neg {m M u : α} (hd : m < M) (hu0 : 0 < u) (hu1 : u ≤ 1) :
    hue2rgb m M (1 + -u / 6 + 1 / 3) = M ∧ hue2rgb m M (1 + -u / 6) = m ∧
      hue2rgb m M (1 + -u / 6 - 1 / 3) = m + u * (M - m) := by
  refine ⟨?_, ?_, ?_⟩
  · rw [hue2rgb_high (by linarith)]
    split_ifs <;>
      first
      | rfl
      | linarith
      | ring1
      | (have hu : u = 1 := by linarith
         subst hu; ring1)
  · rw [hue2rgb_mid (by linarith) (by linarith)]
    split_ifs <;>
      first
      | rfl
      | linarith
      | ring1
      | (have hu : u = 1 := by linarith
         subst hu; ring1)
  · rw [hue2rgb_mid (by linarith) (by linarith)]
    split_ifs <;>
      first
      | rfl
      | linarith
      | ring1
      | (have hu : u = 1 := by linarith
         subst hu; ring1)

/-- Sector of hue `(2 + u)/6`: green is the maximum, red the minimum. -/
theorem hue_sector_g_pos {m M u : α} (hd : m < M) (hu0 : 0 ≤ u) (hu1 : u ≤ 1) :
    hue2rgb m M ((2 + u) / 6 + 1 / 3) = m ∧ hue2rgb m M ((2 + u) / 6) = M ∧
      hue2rgb m M ((2 + u) / 6 - 1 / 3) = m + u * (M - m) := by
  refine ⟨?_, ?_, ?_⟩
  · rw [hue2rgb_mid (by linarith) (by linarith)]
    split_ifs <;>
      first
      | rfl
      | linarith
      | ring1
      | (have hu : u = 1 := by linarith
         subst hu; ring1)
  · rw [hue2rgb_mid (by linarith) (by linarith)]
    split_ifs <;>
      first
      | rfl
      | linarith
      | ring1
      | (have hu : u = 1 := by linarith
         subst hu; ring1)
  · rw [hue2rgb_mid (by linarith) (by linarith)]
    split_ifs <;>
      first
      | rfl
      | linarith
      | ring1
      | (have hu : u = 1 := by linarith
         subst hu; ring1)

/-- Sector of hue `(2 - u)/6`: green is the maximum, blue the minimum. -/
theorem hue_sector_g_neg {m M u : α} (hd : m < M) (hu0 : 0 < u) (hu1 : u ≤ 1) :
    hue2rgb m M ((2 + -u) / 6 + 1 / 3) = m + u * (M - m) ∧ hue2rgb m M ((2 + -u) / 6) = M ∧
      hue2rgb m M ((2 + -u) / 6 - 1 / 3) = m := by
  refine ⟨?_, ?_, ?_⟩
  · rw [hue2rgb_mid (by linarith) (by linarith)]
    split_ifs <;>
      first
      | rfl
      | linarith
      | ring1
      | (have hu : u = 1 := by linarith
         subst hu; ring1)
  · rw [hue2rgb_mid (by linarith) (by linarith)]
    split_ifs <;>
      first
      | rfl
      | linarith
      | ring1
      | (have hu : u = 1 := by linarith
         subst hu; ring1)
  · rw [hue2rgb_low (by linarith)]
    split_ifs <;>
      first
      | rfl
      | linarith
      | ring1
      | (have hu : u = 1 := by linarith
         subst hu; ring1)

/-- Sector of hue `(4 + u)/6`: blue is the maximum, green the minimum. -/
theorem hue_sector_b_pos {m M u : α} (hd : m < M) (hu0 : 0 ≤ u) (hu1 : u ≤ 1) :
    hue2rgb m M ((4 + u) / 6 + 1 / 3) = m + u * (M - m) ∧ hue2rgb m M ((4 + u) / 6) = m ∧
      hue2rgb m M ((4 + u) / 6 - 1 / 3) = M := by
  refine ⟨?_, ?_, ?_⟩
  · rcases eq_or_lt_of_le hu0 with h0 | h0
    · subst h0
      rw [hue2rgb_mid (by norm_num) (by norm_num)]
      norm_num
    rw [hue2rgb_high (by linarith)]
    split_ifs <;>
      first
      | rfl
      | linarith
      | ring1
      | (have hu : u = 1 := by linarith
         subst hu; ring1)
  · rw [hue2rgb_mid (by linarith) (by linarith)]
    split_ifs <;>
      first
      | rfl
      | linarith
      | ring1
      | (have hu : u = 1 := by linarith
         subst hu; ring1)
  · rw [hue2rgb_mid (by linarith) (by linarith)]
    split_ifs <;>
      first
      | rfl
      | linarith
      | ring1
      | (have hu : u = 1 := by linarith
         subst hu; ring1)

/-- Sector of hue `(4 - u)/6`: blue is the maximum, red the minimum. -/
theorem hue_sector_b_neg {m M u : α} (hd : m < M) (hu0 : 0 < u) (hu1 : u ≤ 1) :
    hue2rgb m M ((4 + -u) / 6 + 1 / 3) = m ∧ hue2rgb m M ((4 + -u) / 6) = m + u * (M - m) ∧
      hue2rgb m M ((4 + -u) / 6 - 1 / 3) = M := by
  refine ⟨?_, ?_, ?_⟩
  · rw [hue2rgb_mid (by linarith) (by linarith)]
    split_ifs <;>
      first
      | rfl
      | linarith
      | ring1
      | (have hu : u = 1 := by linarith
         subst hu; ring1)
  · rw [hue2rgb_mid (by linarith) (by linarith)]
    split_ifs <;>
      first
      | rfl
      | linarith
      | ring1
      | (have hu : u = 1 := by linarith
         subst hu; ring1)
  · rw [hue2rgb_mid (by linarith) (by linarith)]
    split_ifs <;>
      first
      | rfl
      | linarith
      | ring1
      | (have hu : u = 1 := by linarith
         subst hu; ring1)


/-- The three `hue2rgb` calls of `hsl2rgb`, at the hue computed by `rgb2hsl`, give back the
channels `r, g, b` whenever `M` is their maximum, `m` their minimum and `m < M`. -/
theorem hue_roundtrip {r g b m M h0 h : α} (hlt : m < M)
    (mr : m ≤ r) (mg : m ≤ g) (mb : m ≤ b) (rM : r ≤ M) (gM : g ≤ M) (bM : b ≤ M)
    (hmin : m = r ∨ m = g ∨ m = b) (hmax : M = r ∨ M = g ∨ M = b)
    (hh0 : h0 = (if M = r then (g - b) / (M - m)
                 else if M = g then 2 + (b - r) / (M - m)
                 else 4 + (r - g) / (M - m)) / 6)
    (hh : h = if h0 < 0 then 1 + h0 else h0) :
    hue2rgb m M (h + 1 / 3) = r ∧ hue2rgb m M h = g ∧ hue2rgb m M (h - 1 / 3) = b := by
  have hd : 0 < M - m := sub_pos.mpr hlt
  have hne : M - m ≠ 0 := hd.ne'
  by_cases h1 : M = r
  · rw [if_pos h1] at hh0
    subst h1
    rcases le_or_lt b g with hbg | hbg
    · have hbm : b = m := by
        rcases hmin with e | e | e
        · exact absurd e hlt.ne
        · exact le_antisymm (e ▸ hbg) mb
        · exact e.symm
      subst hbm
      have hu0 : 0 ≤ (g - b) / (M - b) := div_nonneg (sub_nonneg.mpr hbg) hd.le
      have hu1 : (g - b) / (M - b) ≤ 1 := (quot_mem hlt mg gM mb bM).2
      have hug : b + (g - b) / (M - b) * (M - b) = g := by field_simp
      have hh' : h = (g - b) / (M - b) / 6 := by
        rw [hh, if_neg (by rw [hh0]; linarith)]; exact hh0
      have := hue_sector_r_pos hlt hu0 hu1
      rw [hug] at this
      rw [hh']; exact this
    · have hgm : g = m := by
        rcases hmin with e | e | e
        · exact absurd e hlt.ne
        · exact e.symm
        · exact absurd (e ▸ mg) (not_le.mpr hbg)
      subst hgm
      have hu0 : 0 < (b - g) / (M - g) := div_pos (sub_pos.mpr hbg) hd
      have hu1 : (b - g) / (M - g) ≤ 1 := (quot_mem hlt mb bM mg gM).2
      have hug : g + (b - g) / (M - g) * (M - g) = b := by field_simp
      have hneg : (g - b) / (M - g) = -((b - g) / (M - g)) := by rw [← neg_div, neg_sub]
      have hh' : h = 1 + -((b - g) / (M - g)) / 6 := by
        rw [hh, if_pos (by rw [hh0, hneg]; linarith), hh0, hneg]
      have := hue_sector_r_neg hlt hu0 hu1
      rw [hug] at this
      rw [hh']; exact this
  · rw [if_neg h1] at hh0
    by_cases h2 : M = g
    · rw [if_pos h2] at hh0
      subst h2
      rcases le_or_lt r b with hrb | hrb
      · have hrm : r = m := by
          rcases hmin with e | e | e
          · exact e.symm
          · exact absurd e hlt.ne
          · exact le_antisymm (e ▸ hrb) mr
        subst hrm
        have hu0 : 0 ≤ (b - r) / (M - r) := div_nonneg (sub_nonneg.mpr hrb) hd.le
        have hu1 : (b - r) / (M - r) ≤ 1 := (quot_mem hlt mb bM mr rM).2
        have hug : r + (b - r) / (M - r) * (M - r) = b := by field_simp
        have hh' : h = (2 + (b - r) / (M - r)) / 6 := by
          rw [hh, if_neg (by rw [hh0]; linarith)]; exact hh0
        have := hue_sector_g_pos hlt hu0 hu1
        rw [hug] at this
        rw [hh']; exact this
      · have hbm : b = m := by
          rcases hmin with e | e | e
          · exact absurd (e ▸ mb) (not_le.mpr hrb)
          · exact absurd e hlt.ne
          · exact e.symm
        subst hbm
        have hu0 : 0 < (r - b) / (M - b) := div_pos (sub_pos.mpr hrb) hd
        have hu1 : (r - b) / (M - b) ≤ 1 := (quot_mem hlt mr rM mb bM).2
        have hug : b + (r - b) / (M - b) * (M - b) = r := by field_simp
        have hneg : (b - r) / (M - b) = -((r - b) / (M - b)) := by rw [← neg_div, neg_sub]
        have hh' : h = (2 + -((r - b) / (M - b))) / 6 := by
          rw [hh, if_neg (by rw [hh0, hneg]; linarith), hh0, hneg]
        have := hue_sector_g_neg hlt hu0 hu1
        rw [hug] at this
        rw [hh']; exact this
    · rw [if_neg h2] at hh0
      have h3 : M = b := by
        rcases hmax with e | e | e
        · exact absurd e h1
        · exact absurd e h2
        · exact e
      subst h3
      rcases le_or_lt g r with hgr | hgr
      · have hgm : g = m := by
          rcases hmin with e | e | e
          · exact le_antisymm (e ▸ hgr) mg
          · exact e.symm
          · exact absurd e hlt.ne
        subst hgm
        have hu0 : 0 ≤ (r - g) / (M - g) := div_nonneg (sub_nonneg.mpr hgr) hd.le
        have hu1 : (r - g) / (M - g) ≤ 1 := (quot_mem hlt mr rM mg gM).2
        have hug : g + (r - g) / (M - g) * (M - g) = r := by field_simp
        have hh' : h = (4 + (r - g) / (M - g)) / 6 := by
          rw [hh, if_neg (by rw [hh0]; linarith)]; exact hh0
        have := hue_sector_b_pos hlt hu0 hu1
        rw [hug] at this
        rw [hh']; exact this
      · have hrm : r = m := by
          rcases hmin with e | e | e
          · exact e.symm
          · exact absurd (e ▸ mr) (not_le.mpr hgr)
          · exact absurd e hlt.ne
        subst hrm
        have hu0 : 0 < (g - r) / (M - r) := div_pos (sub_pos.mpr hgr) hd
        have hu1 : (g - r) / (M - r) ≤ 1 := (quot_mem hlt mg gM mr rM).2
        have hug : r + (g - r) / (M - r) * (M - r) = g := by field_simp
        have hneg : (r - g) / (M - r) = -((g - r) / (M - r)) := by rw [← neg_div, neg_sub]
        have hh' : h = (4 + -((g - r) / (M - r))) / 6 := by
          rw [hh, if_neg (by rw [hh0, hneg]; linarith), hh0, hneg]
        have := hue_sector_b_neg hlt hu0 hu1
        rw [hug] at this
        rw [hh']; exact this

/-- The auxiliaries `q` and `p = 2l - q` of `hsl2rgb`, for `s` and `l` in `[0, 1]`. -/
theorem hsl2rgb_pq {s l : α} (s0 : 0 ≤ s) (s1 : s ≤ 1) (l0 : 0 ≤ l) (l1 : l ≤ 1) :
    0 ≤ 2 * l - (if l < 0.5 then l * (1 + s) else l + s - l * s) ∧
    2 * l - 1 ≤ 2 * l - (if l < 0.5 then l * (1 + s) else l + s - l * s) ∧
    2 * l - (if l < 0.5 then l * (1 + s) else l + s - l * s) ≤
      (if l < 0.5 then l * (1 + s) else l + s - l * s) ∧
    (if l < 0.5 then l * (1 + s) else l + s - l * s) ≤ 1 := by
  split_ifs with h
  · have h' : l < 1 / 2 := by norm_num at h; linarith
    refine ⟨?_, ?_, ?_, ?_⟩ <;>
      nlinarith [mul_nonneg l0 s0, mul_nonneg l0 (sub_nonneg.mpr s1)]
  · have h' : 1 / 2 ≤ l := by norm_num at h; linarith
    refine ⟨?_, ?_, ?_, ?_⟩ <;>
      nlinarith [mul_nonneg (sub_nonneg.mpr l1) s0, mul_nonneg (sub_nonneg.mpr l1) (sub_nonneg.mpr s1)]

/-- The achromatic branch of `hsl2rgb`. -/
theorem hsl2rgb_of_nonpos {v : Vec3 α} (hs : saturate v.y ≤ 0) :
    hsl2rgb v = ⟨saturate v.z, saturate v.z, saturate v.z⟩ := by
  unfold hsl2rgb
  simp only [Vec3.saturate, if_pos hs]

/-- The chromatic branch of `hsl2rgb`. -/
theorem hsl2rgb_of_pos {v : Vec3 α} (hs : ¬ saturate v.y ≤ 0) :
    hsl2rgb v =
      ⟨hue2rgb (2 * saturate v.z - (if saturate v.z < 0.5 then saturate v.z * (1 + saturate v.y)
            else saturate v.z + saturate v.y - saturate v.z * saturate v.y))
          (if saturate v.z < 0.5 then saturate v.z * (1 + saturate v.y)
            else saturate v.z + saturate v.y - saturate v.z * saturate v.y) (saturate v.x + 1 / 3),
       hue2rgb (2 * saturate v.z - (if saturate v.z < 0.5 then saturate v.z * (1 + saturate v.y)
            else saturate v.z + saturate v.y - saturate v.z * saturate v.y))
          (if saturate v.z < 0.5 then saturate v.z * (1 + saturate v.y)
            else saturate v.z + saturate v.y - saturate v.z * saturate v.y) (saturate v.x),
       hue2rgb (2 * saturate v.z - (if saturate v.z < 0.5 then saturate v.z * (1 + saturate v.y)
            else saturate v.z + saturate v.y - saturate v.z * saturate v.y))
          (if saturate v.z < 0.5 then saturate v.z * (1 + saturate v.y)
            else saturate v.z + saturate v.y - saturate v.z * saturate v.y)
          (saturate v.x - 1 / 3)⟩ := by
  unfold hsl2rgb
  simp only [Vec3.saturate, if_neg hs]

/-- Every channel of `hsl2rgb v` lies in `[0, 1]` and is at least `2 l - 1`, where `l` is the
saturated lightness of `v`. -/
theorem hsl2rgb_bounds (v : Vec3 α) :
    (max 0 (2 * saturate v.z - 1) ≤ (hsl2rgb v).x ∧ (hsl2rgb v).x ≤ 1) ∧
    (max 0 (2 * saturate v.z - 1) ≤ (hsl2rgb v).y ∧ (hsl2rgb v).y ≤ 1) ∧
    (max 0 (2 * saturate v.z - 1) ≤ (hsl2rgb v).z ∧ (hsl2rgb v).z ≤ 1) := by
  have hh0 := saturate_nonneg v.x
  have hh1 := saturate_le_one v.x
  have s0 := saturate_nonneg v.y
  have s1 := saturate_le_one v.y
  have l0 := saturate_nonneg v.z
  have l1 := saturate_le_one v.z
  by_cases hs : saturate v.y ≤ 0
  · rw [hsl2rgb_of_nonpos hs]
    have : max 0 (2 * saturate v.z - 1) ≤ saturate v.z := max_le l0 (by linarith)
    exact ⟨⟨this, l1⟩, ⟨this, l1⟩, ⟨this, l1⟩⟩
  · rw [hsl2rgb_of_pos hs]
    obtain ⟨p0, pl, pq, q1⟩ := hsl2rgb_pq s0 s1 l0 l1
    have hp := max_le p0 pl
    have a := hue2rgb_mem (t := saturate v.x + 1 / 3) pq (by linarith)
    have b := hue2rgb_mem (t := saturate v.x) pq (by linarith)
    have c := hue2rgb_mem (t := saturate v.x - 1 / 3) pq (by linarith)
    exact ⟨⟨hp.trans a.1, a.2.trans q1⟩, ⟨hp.trans b.1, b.2.trans q1⟩,
      ⟨hp.trans c.1, c.2.trans q1⟩⟩

theorem abs_sub_le_of_mem {a b lo hi e : α} (ha : lo ≤ a) (ha' : a ≤ hi) (hb : lo ≤ b)
    (hb' : b ≤ hi) (he : hi - lo ≤ e) : |a - b| ≤ e := by
  rw [abs_le]; constructor <;> linarith

/-- Near white, where the raised `MAX` exceeds 1 (this includes the gray at which the divisor
`2 - MAX - MIN` vanishes), `hsl2rgb` returns every channel within `1e-6` of the input whatever
hue and saturation it is given with the lightness of `rgb2hsl c`: the bound does not depend on
the value of the quotient that `rgb2hsl` computes there. -/
theorem hsl2rgb_near_white (c : Vec3 α) (hc : c.InUnit) (hM : 1 < rgb2hslMAX c) (h s : α) :
    |(hsl2rgb ⟨h, s, (rgb2hsl c).z⟩).x - c.x| ≤ 1e-6 ∧
    |(hsl2rgb ⟨h, s, (rgb2hsl c).z⟩).y - c.y| ≤ 1e-6 ∧
    |(hsl2rgb ⟨h, s, (rgb2hsl c).z⟩).z - c.z| ≤ 1e-6 := by
  obtain ⟨m0, m1, mx, my, mz, xM, yM, zM, hd, hle, hmin, hmax⟩ := rgb2hsl_min_max c
  have he := eps_pos (α := α)
  rw [Vec3.saturate_of_inUnit hc] at mx my mz
  have e : rgb2hslMAX c = rgb2hslMIN c + 1e-6 := by
    rcases hle with h' | h'
    · exact absurd h' (not_le.mpr hM)
    · exact h'
  obtain ⟨⟨a0, a1⟩, ⟨b0, b1⟩, ⟨c0, c1⟩⟩ := hsl2rgb_bounds ⟨h, s, (rgb2hsl c).z⟩
  have hl : 1 - 1e-6 ≤ max 0 (2 * saturate (rgb2hsl c).z - 1) := by
    apply le_max_of_le_right
    rw [rgb2hsl_z, rgb2hslL, e]
    have : 1 - 1e-6 / 2 ≤ saturate ((rgb2hslMIN c + (rgb2hslMIN c + 1e-6)) / 2) := by
      unfold saturate clamp
      exact le_min (le_max_of_le_left (by linarith)) (by linarith)
    linarith
  obtain ⟨⟨_, x1⟩, ⟨_, y1⟩, ⟨_, z1⟩⟩ := hc
  exact ⟨abs_sub_le_of_mem (hl.trans a0) a1 (by linarith) x1 (by linarith),
    abs_sub_le_of_mem (hl.trans b0) b1 (by linarith) y1 (by linarith),
    abs_sub_le_of_mem (hl.trans c0) c1 (by linarith) z1 (by linarith)⟩

/-- The round trip `hsl2rgb ∘ rgb2hsl` moves every channel of a colour of the unit cube by at
most `1e-6`. -/
theorem hsl_round_trip_eps (c : Vec3 α) (hc : c.InUnit) :
    |(hsl2rgb (rgb2hsl c)).x - c.x| ≤ 1e-6 ∧ |(hsl2rgb (rgb2hsl c)).y - c.y| ≤ 1e-6 ∧
      |(hsl2rgb (rgb2hsl c)).z - c.z| ≤ 1e-6 := by
  obtain ⟨m0, m1, mx, my, mz, xM, yM, zM, hd, hle, hmin, hmax⟩ := rgb2hsl_min_max c
  have he := eps_pos (α := α)
  have hlt : rgb2hslMIN c < rgb2hslMAX c := by linarith
  obtain ⟨h0, h1⟩ := rgb2hsl_hue_mem c
  have hx := rgb2hsl_x c
  rw [Vec3.saturate_of_inUnit hc] at mx my mz xM yM zM hmin hmax hx
  have hexact : (rgb2hslMAX c = c.x ∨ rgb2hslMAX c = c.y ∨ rgb2hslMAX c = c.z) →
      hsl2rgb (rgb2hsl c) = c := by
    intro hmax'
    have hM1 : rgb2hslMAX c ≤ 1 := by
      obtain ⟨⟨_, a1⟩, ⟨_, b1⟩, ⟨_, c1⟩⟩ := hc
      rcases hmax' with e | e | e <;> rw [e] <;> assumption
    rw [hsl2rgb_rgb2hsl_of_le c hM1]
    obtain ⟨e1, e2, e3⟩ := hue_roundtrip hlt mx my mz xM yM zM hmin hmax' rfl hx
    ext <;> assumption
  rcases hmax with e | e
  · rcases le_or_lt (rgb2hslMAX c) 1 with hM1 | hM1
    · rw [hsl2rgb_rgb2hsl_of_le c hM1]
      have a := hue2rgb_mem (t := (rgb2hsl c).x + 1 / 3) hlt.le (by linarith)
      have b := hue2rgb_mem (t := (rgb2hsl c).x) hlt.le (by linarith)
      have d := hue2rgb_mem (t := (rgb2hsl c).x - 1 / 3) hlt.le (by linarith)
      exact ⟨abs_sub_le_of_mem a.1 a.2 mx xM (by linarith),
        abs_sub_le_of_mem b.1 b.2 my yM (by linarith),
        abs_sub_le_of_mem d.1 d.2 mz zM (by linarith)⟩
    · exact hsl2rgb_near_white c hc hM1 (rgb2hsl c).x (rgb2hsl c).y
  · rw [hexact e]
    simp only [sub_self, abs_zero]
    exact ⟨he.le, he.le, he.le⟩

theorem fract_of_mem [FloorRing α] {x : α} (h0 : 0 ≤ x) (h1 : x < 1) : fract x = x := by
  unfold fract
  have : ⌊x⌋ = 0 := by rw [Int.floor_eq_iff]; simp [h0, h1]
  rw [this]; simp

/-- C1 (HSL saturation): `rgb2hsl` and `hsl2rgb` give the same result on a triple and on the
triple clamped coordinate-wise to `[0, 1]`. -/
theorem hsl_saturation (c : Vec3 α) :
    rgb2hsl c = rgb2hsl (c.clamp 0 1) ∧ hsl2rgb c = hsl2rgb (c.clamp 0 1) := by
  constructor
  · simp only [rgb2hsl, Vec3.clamp_zero_one, rgb2hslMIN_saturate, rgb2hslMAX_saturate,
      rgb2hslL_saturate, Vec3.saturate_twice]
  · simp only [hsl2rgb, Vec3.clamp_zero_one, Vec3.saturate_twice]

/-- C2, counterexample: the HSV pair does not saturate.  `rgb2hsv (2, 0, 0)` has value 2 while
the clamped input `(1, 0, 0)` has value 1; `hsv2rgb (0, 2, 1)` has green channel `-1` while the
clamped input `(0, 1, 1)` has green channel 0. -/
theorem hsv_saturation_fails :
    (rgb2hsv (⟨2, 0, 0⟩ : Vec3 ℝ)).z = 2 ∧
    (rgb2hsv ((⟨2, 0, 0⟩ : Vec3 ℝ).clamp 0 1)).z = 1 ∧
    rgb2hsv (⟨2, 0, 0⟩ : Vec3 ℝ) ≠ rgb2hsv ((⟨2, 0, 0⟩ : Vec3 ℝ).clamp 0 1) ∧
    (hsv2rgb (⟨0, 2, 1⟩ : Vec3 ℝ)).y = -1 ∧
    (hsv2rgb ((⟨0, 2, 1⟩ : Vec3 ℝ).clamp 0 1)).y = 0 ∧
    hsv2rgb (⟨0, 2, 1⟩ : Vec3 ℝ) ≠ hsv2rgb ((⟨0, 2, 1⟩ : Vec3 ℝ).clamp 0 1) := by
  have h1 : (rgb2hsv (⟨2, 0, 0⟩ : Vec3 ℝ)).z = 2 := by
    norm_num [rgb2hsv, Vec4.mix, mix, step]
  have h2 : (rgb2hsv ((⟨2, 0, 0⟩ : Vec3 ℝ).clamp 0 1)).z = 1 := by
    norm_num [rgb2hsv, Vec4.mix, mix, step, Vec3.clamp, clamp]
  have hf : fract ((0 : ℝ) + 2 / 3) = 2 / 3 := by
    rw [fract_of_mem (by norm_num) (by norm_num)]; norm_num
  have h3 : (hsv2rgb (⟨0, 2, 1⟩ : Vec3 ℝ)).y = -1 := by
    simp only [hsv2rgb, hf]; norm_num [mix, clamp]
  have h4 : (hsv2rgb ((⟨0, 2, 1⟩ : Vec3 ℝ).clamp 0 1)).y = 0 := by
    have e : colors.clamp (0 : ℝ) 0 1 = 0 := by norm_num [clamp]
    simp only [hsv2rgb, Vec3.clamp, e, hf]; norm_num [mix, clamp]
  refine ⟨h1, h2, ?_, h3, h4, ?_⟩
  · intro h; rw [h, h2] at h1; norm_num at h1
  · intro h; rw [h, h4] at h3; norm_num at h3

/-- C3 (HSL round trip): for every colour of the unit cube, each channel of
`hsl2rgb (rgb2hsl c)` is within `1e-4` of the channel of `c`. -/
theorem hsl_round_trip (c : Vec3 α) (hc : c.InUnit) :
    |(hsl2rgb (rgb2hsl c)).x - c.x| ≤ 1e-4 ∧ |(hsl2rgb (rgb2hsl c)).y - c.y| ≤ 1e-4 ∧
      |(hsl2rgb (rgb2hsl c)).z - c.z| ≤ 1e-4 := by
  obtain ⟨hx, hy, hz⟩ := hsl_round_trip_eps c hc
  have he : (1e-6 : α) ≤ 1e-4 := by norm_num
  exact ⟨hx.trans he, hy.trans he, hz.trans he⟩

/-- Witness of `hsl_round_trip`. -/
theorem hsl_round_trip_witness :
    (⟨3 / 10, 7 / 10, 1 / 5⟩ : Vec3 ℚ).InUnit ∧
    (|(hsl2rgb (rgb2hsl (⟨3 / 10, 7 / 10, 1 / 5⟩ : Vec3 ℚ))).x - 3 / 10| ≤ 1e-4 ∧
     |(hsl2rgb (rgb2hsl (⟨3 / 10, 7 / 10, 1 / 5⟩ : Vec3 ℚ))).y - 7 / 10| ≤ 1e-4 ∧
     |(hsl2rgb (rgb2hsl (⟨3 / 10, 7 / 10, 1 / 5⟩ : Vec3 ℚ))).z - 1 / 5| ≤ 1e-4) :=
  ⟨by norm_num [Vec3.InUnit], hsl_round_trip _ (by norm_num [Vec3.InUnit])⟩


/-- The quantities of `rgb2hsl` on a gray `(x, x, x)` of the unit interval: `MIN = x`, the raised
`MAX = x + 1e-6`, and the hue is `2/3` because no channel equals the raised `MAX`. -/
theorem rgb2hsl_gray {x : α} (h0 : 0 ≤ x) (h1 : x ≤ 1) :
    rgb2hslMIN ⟨x, x, x⟩ = x ∧ rgb2hslMAX ⟨x, x, x⟩ = x + 1e-6 ∧ (rgb2hsl ⟨x, x, x⟩).x = 2 / 3 := by
  have he := eps_pos (α := α)
  have hs : (⟨x, x, x⟩ : Vec3 α).saturate = ⟨x, x, x⟩ :=
    Vec3.saturate_of_inUnit ⟨⟨h0, h1⟩, ⟨h0, h1⟩, ⟨h0, h1⟩⟩
  have hm : rgb2hslMIN ⟨x, x, x⟩ = x := by
    simp only [rgb2hslMIN, hs, min_self]
  have hM : rgb2hslMAX ⟨x, x, x⟩ = x + 1e-6 := by
    simp only [rgb2hslMAX, hm, hs, max_self]
    exact max_eq_left (by linarith)
  refine ⟨hm, hM, ?_⟩
  rw [rgb2hsl_x, hs, hM, hm]
  have hne : ¬ (x + 1e-6 = x) := by
    intro h; linarith
  simp only [if_neg hne, sub_self, zero_div, add_zero]
  norm_num

/-- On a gray `(x, x, x)` with `x ≤ 1 - 1e-6` the round trip returns `(x, x, x + 1e-6)`. -/
theorem hsl_gray_value {x : α} (h0 : 0 ≤ x) (h1 : x ≤ 1 - 1e-6) :
    hsl2rgb (rgb2hsl ⟨x, x, x⟩) = ⟨x, x, x + 1e-6⟩ := by
  have he := eps_pos (α := α)
  obtain ⟨hm, hM, hh⟩ := rgb2hsl_gray h0 (by linarith : x ≤ 1)
  rw [hsl2rgb_rgb2hsl_of_le _ (by rw [hM]; linarith), hm, hM, hh]
  have e1 : hue2rgb x (x + 1e-6) (2 / 3 + 1 / 3) = x := by
    rw [hue2rgb_mid (by norm_num) (by norm_num)]; norm_num
  have e2 : hue2rgb x (x + 1e-6) (2 / 3) = x := by
    rw [hue2rgb_mid (by norm_num) (by norm_num)]; norm_num
  have e3 : hue2rgb x (x + 1e-6) (2 / 3 - 1 / 3) = x + 1e-6 := by
    rw [hue2rgb_mid (by norm_num) (by norm_num)]; norm_num
  rw [e1, e2, e3]

/-- C4, counterexample: the round trip of mid gray is `(0.5, 0.5, 0.500001)`, not mid gray. -/
theorem hsl_gray_round_trip_not_exact :
    hsl2rgb (rgb2hsl (⟨0.5, 0.5, 0.5⟩ : Vec3 ℝ)) = ⟨0.5, 0.5, 0.500001⟩ ∧
    hsl2rgb (rgb2hsl (⟨0.5, 0.5, 0.5⟩ : Vec3 ℝ)) ≠ ⟨0.5, 0.5, 0.5⟩ := by
  have h := hsl_gray_value (x := (0.5 : ℝ)) (by norm_num) (by norm_num)
  have e : (0.5 : ℝ) + 1e-6 = 0.500001 := by norm_num
  rw [e] at h
  refine ⟨h, ?_⟩
  rw [h]
  intro h'
  have := congrArg Vec3.z h'
  norm_num at this

/-- C4, amended: on a gray `(x, x, x)` with `x` in `[0, 1]` every channel of
`hsl2rgb (rgb2hsl (x, x, x))` is within `2e-6` of `x`. -/
theorem hsl_gray_round_trip (x : α) (h0 : 0 ≤ x) (h1 : x ≤ 1) :
    |(hsl2rgb (rgb2hsl ⟨x, x, x⟩)).x - x| ≤ 2e-6 ∧ |(hsl2rgb (rgb2hsl ⟨x, x, x⟩)).y - x| ≤ 2e-6 ∧
      |(hsl2rgb (rgb2hsl ⟨x, x, x⟩)).z - x| ≤ 2e-6 := by
  obtain ⟨a, b, c⟩ := hsl_round_trip_eps ⟨x, x, x⟩ ⟨⟨h0, h1⟩, ⟨h0, h1⟩, ⟨h0, h1⟩⟩
  have e : (1e-6 : α) ≤ 2e-6 := by norm_num
  exact ⟨a.trans e, b.trans e, c.trans e⟩

/-- Witness of `hsl_gray_round_trip` on the gray `1/4`. -/
theorem hsl_gray_round_trip_witness :
    (0 : ℚ) ≤ 1 / 4 ∧ (1 / 4 : ℚ) ≤ 1 ∧
    (|(hsl2rgb (rgb2hsl (⟨1 / 4, 1 / 4, 1 / 4⟩ : Vec3 ℚ))).x - 1 / 4| ≤ 2e-6 ∧
      |(hsl2rgb (rgb2hsl (⟨1 / 4, 1 / 4, 1 / 4⟩ : Vec3 ℚ))).y - 1 / 4| ≤ 2e-6 ∧
      |(hsl2rgb (rgb2hsl (⟨1 / 4, 1 / 4, 1 / 4⟩ : Vec3 ℚ))).z - 1 / 4| ≤ 2e-6) :=
  ⟨by norm_num, by norm_num, hsl_gray_round_trip (1 / 4 : ℚ) (by norm_num) (by norm_num)⟩

/-- The divisors of `rgb2hsl` that the floor on `MAX` does protect: `MAX - MIN` and
`MIN + MAX` are at least `1e-6` for every input, and `2 - MAX - MIN` is positive whenever the
raised `MAX` does not exceed 1. -/
theorem rgb2hsl_protected_divisors (c : Vec3 α) :
    1e-6 ≤ rgb2hslHueDivisor c ∧ 1e-6 ≤ rgb2hslMIN c + rgb2hslMAX c ∧
    (rgb2hslMAX c ≤ 1 → 0 < 2 - rgb2hslMAX c - rgb2hslMIN c) := by
  obtain ⟨m0, m1, mx, my, mz, xM, yM, zM, hd, -, -, -⟩ := rgb2hsl_min_max c
  have he := eps_pos (α := α)
  unfold rgb2hslHueDivisor
  refine ⟨by linarith, by linarith, fun h => by linarith⟩

/-- C7, evaluation at the failing input: on the gray `0.9999995` the branch `l ≥ 0.5` is taken
and its divisor `2 - MAX - MIN` is zero, while the numerator `MAX - MIN` is `1e-6`. -/
theorem rgb2hsl_divides_by_zero :
    ¬ (rgb2hslL (⟨0.9999995, 0.9999995, 0.9999995⟩ : Vec3 ℝ) < 0.5) ∧
    rgb2hslSatDivisor (⟨0.9999995, 0.9999995, 0.9999995⟩ : Vec3 ℝ) = 0 ∧
    rgb2hslHueDivisor (⟨0.9999995, 0.9999995, 0.9999995⟩ : Vec3 ℝ) = 1e-6 ∧
    (rgb2hsl (⟨0.9999995, 0.9999995, 0.9999995⟩ : Vec3 ℝ)).y =
      rgb2hslHueDivisor (⟨0.9999995, 0.9999995, 0.9999995⟩ : Vec3 ℝ) /
        rgb2hslSatDivisor (⟨0.9999995, 0.9999995, 0.9999995⟩ : Vec3 ℝ) := by
  obtain ⟨hm, hM, -⟩ := rgb2hsl_gray (x := (0.9999995 : ℝ)) (by norm_num) (by norm_num)
  have hl : ¬ (rgb2hslL (⟨0.9999995, 0.9999995, 0.9999995⟩ : Vec3 ℝ) < 0.5) := by
    rw [rgb2hslL, hm, hM]; norm_num
  refine ⟨hl, ?_, ?_, rgb2hsl_y_eq_div _⟩
  · rw [rgb2hslSatDivisor, if_neg hl, hm, hM]; norm_num
  · rw [rgb2hslHueDivisor, hm, hM]; norm_num

/-- C9, counterexample: on white `rgb2hsl` returns saturation `-1` and lightness `1.0000005`. -/
theorem rgb2hsl_white_out_of_range :
    (rgb2hsl (⟨1, 1, 1⟩ : Vec3 ℝ)).y = -1 ∧ (rgb2hsl (⟨1, 1, 1⟩ : Vec3 ℝ)).z = 1.0000005 ∧
    ¬ ((0 ≤ (rgb2hsl (⟨1, 1, 1⟩ : Vec3 ℝ)).x ∧ (rgb2hsl (⟨1, 1, 1⟩ : Vec3 ℝ)).x ≤ 1) ∧
       (0 ≤ (rgb2hsl (⟨1, 1, 1⟩ : Vec3 ℝ)).y ∧ (rgb2hsl (⟨1, 1, 1⟩ : Vec3 ℝ)).y ≤ 1) ∧
       (0 ≤ (rgb2hsl (⟨1, 1, 1⟩ : Vec3 ℝ)).z ∧ (rgb2hsl (⟨1, 1, 1⟩ : Vec3 ℝ)).z ≤ 1)) := by
  obtain ⟨hm, hM, -⟩ := rgb2hsl_gray (x := (1 : ℝ)) (by norm_num) (by norm_num)
  have hz : (rgb2hsl (⟨1, 1, 1⟩ : Vec3 ℝ)).z = 1.0000005 := by
    rw [rgb2hsl_z, rgb2hslL, hm, hM]; norm_num
  have hy : (rgb2hsl (⟨1, 1, 1⟩ : Vec3 ℝ)).y = -1 := by
    rw [rgb2hsl_y, rgb2hslL, hm, hM]; norm_num
  refine ⟨hy, hz, ?_⟩
  rintro ⟨-, ⟨h, -⟩, -⟩
  rw [hy] at h; norm_num at h

/-- C9, amended: the hue of `rgb2hsl c` is in `[0, 1]` for every `c`, and the saturation and
the lightness are in `[0, 1]` whenever the smallest channel of `c` is at most `1 - 1e-6`. -/
theorem rgb2hsl_valid (c : Vec3 α) :
    (0 ≤ (rgb2hsl c).x ∧ (rgb2hsl c).x ≤ 1) ∧
    (min c.x (min c.y c.z) ≤ 1 - 1e-6 →
      (0 ≤ (rgb2hsl c).y ∧ (rgb2hsl c).y ≤ 1) ∧ (0 ≤ (rgb2hsl c).z ∧ (rgb2hsl c).z ≤ 1)) := by
  refine ⟨rgb2hsl_hue_mem c, fun hmin => ?_⟩
  have he := eps_pos (α := α)
  have hsat : ∀ t : α, t ≤ 1 - 1e-6 → saturate t ≤ 1 - 1e-6 := by
    intro t ht
    unfold saturate clamp
    exact (min_le_left _ _).trans (max_le ht (by norm_num))
  have hm : rgb2hslMIN c ≤ 1 - 1e-6 := by
    unfold rgb2hslMIN
    simp only [Vec3.saturate]
    rcases min_le_iff.mp hmin with h | h
    · exact (min_le_left _ _).trans (hsat _ h)
    · rcases min_le_iff.mp h with h | h
      · exact ((min_le_right _ _).trans (min_le_left _ _)).trans (hsat _ h)
      · exact ((min_le_right _ _).trans (min_le_right _ _)).trans (hsat _ h)
  have hM : rgb2hslMAX c ≤ 1 := by
    obtain ⟨-, -, -, -, -, -, -, -, -, hle, -, -⟩ := rgb2hsl_min_max c
    rcases hle with h | h
    · exact h
    · rw [h]; linarith
  obtain ⟨⟨s0, s1⟩, ⟨l0, l1⟩⟩ := rgb2hsl_sl_mem c hM
  exact ⟨⟨s0.le, s1⟩, ⟨l0.le, l1.le⟩⟩

/-- Witness of `rgb2hsl_valid` on orange `(1, 1/2, 0)`. -/
theorem rgb2hsl_valid_witness :
    min (1 : ℚ) (min (1 / 2) 0) ≤ 1 - 1e-6 ∧
    ((0 ≤ (rgb2hsl (⟨1, 1 / 2, 0⟩ : Vec3 ℚ)).y ∧ (rgb2hsl (⟨1, 1 / 2, 0⟩ : Vec3 ℚ)).y ≤ 1) ∧
      (0 ≤ (rgb2hsl (⟨1, 1 / 2, 0⟩ : Vec3 ℚ)).z ∧ (rgb2hsl (⟨1, 1 / 2, 0⟩ : Vec3 ℚ)).z ≤ 1)) :=
  ⟨by norm_num, (rgb2hsl_valid (⟨1, 1 / 2, 0⟩ : Vec3 ℚ)).2 (by norm_num)⟩

/-- The value of `rgb2hsl` on mid gray. -/
theorem rgb2hsl_mid_gray_value :
    rgb2hsl (⟨0.5, 0.5, 0.5⟩ : Vec3 α) = ⟨2 / 3, 1 / 999999, 0.5000005⟩ := by
  obtain ⟨hm, hM, hh⟩ := rgb2hsl_gray (x := (0.5 : α)) (by norm_num) (by norm_num)
  ext
  · exact hh
  · rw [rgb2hsl_y, rgb2hslL, hm, hM]; norm_num
  · rw [rgb2hsl_z, rgb2hslL, hm, hM]; norm_num

/-- C10, counterexample: the hue of `rgb2hsl (0.5, 0.5, 0.5)` is `2/3`, so the result does
not agree with `(0, 0, 0.5)` to within `5e-4`. -/
theorem rgb2hsl_mid_gray_hue_not_zero :
    (rgb2hsl (⟨0.5, 0.5, 0.5⟩ : Vec3 ℝ)).x = 2 / 3 ∧
    ¬ (|(rgb2hsl (⟨0.5, 0.5, 0.5⟩ : Vec3 ℝ)).x - 0| ≤ 5e-4 ∧
       |(rgb2hsl (⟨0.5, 0.5, 0.5⟩ : Vec3 ℝ)).y - 0| ≤ 5e-4 ∧
       |(rgb2hsl (⟨0.5, 0.5, 0.5⟩ : Vec3 ℝ)).z - 0.5| ≤ 5e-4) := by
  rw [rgb2hsl_mid_gray_value]
  refine ⟨rfl, ?_⟩
  rintro ⟨h, -⟩
  norm_num [abs_le] at h

/-- C10, amended: `rgb2hsl (0.5, 0.5, 0.5) = (2/3, 1/999999, 0.5000005)`, which agrees with
`(2/3, 0, 0.5)` to within `5e-4` in every component. -/
theorem rgb2hsl_mid_gray :
    rgb2hsl (⟨0.5, 0.5, 0.5⟩ : Vec3 α) = ⟨2 / 3, 1 / 999999, 0.5000005⟩ ∧
    |(rgb2hsl (⟨0.5, 0.5, 0.5⟩ : Vec3 α)).x - 2 / 3| ≤ 5e-4 ∧
    |(rgb2hsl (⟨0.5, 0.5, 0.5⟩ : Vec3 α)).y - 0| ≤ 5e-4 ∧
    |(rgb2hsl (⟨0.5, 0.5, 0.5⟩ : Vec3 α)).z - 0.5| ≤ 5e-4 := by
  rw [rgb2hsl_mid_gray_value]
  refine ⟨rfl, ?_, ?_, ?_⟩ <;> norm_num [abs_le]


theorem clamp_mem {x lo hi : α} (h : lo ≤ hi) : lo ≤ clamp x lo hi ∧ clamp x lo hi ≤ hi := by
  unfold clamp
  exact ⟨le_min (le_max_right _ _) h, min_le_right _ _⟩

/-- The output of `clipLab`: first component in `[0, 1]`, the other two in `[-127, 127]`. -/
theorem clipLab_mem (c : Vec3 α) :
    (0 ≤ (clipLab c).x ∧ (clipLab c).x ≤ 1) ∧
    (-127 ≤ (clipLab c).y ∧ (clipLab c).y ≤ 127) ∧
    (-127 ≤ (clipLab c).z ∧ (clipLab c).z ≤ 127) := by
  unfold clipLab
  exact ⟨clamp_mem zero_le_one, clamp_mem (by norm_num), clamp_mem (by norm_num)⟩


/-- C8, counterexample (real `pow`, `tanh` and `π`): on the normalized Lab inputs
`(0.5, 1, 1)` and `(0, 1, 1)` with strength 1, `contrastLabColor` returns `a = 1.5` and
`exposeLabColor` returns `a = 2`, both outside `[0, 1]`. -/
theorem adjust_leaves_normalized_lab :
    (⟨0.5, 1, 1⟩ : Vec3 ℝ).InUnit ∧ (⟨0, 1, 1⟩ : Vec3 ℝ).InUnit ∧
    (contrastLabColor Real.tanh Real.rpow Real.pi ⟨0.5, 1, 1⟩ 1).y = 1.5 ∧
    (exposeLabColor Real.rpow ⟨0, 1, 1⟩ 1).y = 2 ∧
    ¬ ((contrastLabColor Real.tanh Real.rpow Real.pi ⟨0.5, 1, 1⟩ 1).y ≤ 1) ∧
    ¬ ((exposeLabColor Real.rpow ⟨0, 1, 1⟩ 1).y ≤ 1) := by
  have h1 : (contrastLabColor Real.tanh Real.rpow Real.pi ⟨0.5, 1, 1⟩ 1).y = 1.5 := by
    have e : (0.5 : ℝ) * Real.pi * 2 - Real.pi = 0 := by ring
    simp only [contrastLabColor, clipLab, e, Real.tanh_zero, Real.rpow_eq_pow]
    norm_num [clamp]
  have h2 : (exposeLabColor Real.rpow ⟨0, 1, 1⟩ 1).y = 2 := by
    simp only [exposeLabColor, clipLab, Real.rpow_eq_pow]
    norm_num [clamp]
  refine ⟨by norm_num [Vec3.InUnit], by norm_num [Vec3.InUnit], h1, h2, ?_, ?_⟩
  · rw [h1]; norm_num
  · rw [h2]; norm_num

/-- C8, amended: for every Lab input and every strength, and whatever `pow`, `tanh` and `pi`
are, the outputs of `contrastLabColor` and of `exposeLabColor` have their luminance in `[0, 1]`
and their `a` and `b` components in `[-127, 127]`. -/
theorem adjust_stays_clipped (tanh : α → α) (pow : α → α → α) (pi : α) (lab : Vec3 α) (v : α) :
    ((0 ≤ (contrastLabColor tanh pow pi lab v).x ∧ (contrastLabColor tanh pow pi lab v).x ≤ 1) ∧
     (-127 ≤ (contrastLabColor tanh pow pi lab v).y ∧
        (contrastLabColor tanh pow pi lab v).y ≤ 127) ∧
     (-127 ≤ (contrastLabColor tanh pow pi lab v).z ∧
        (contrastLabColor tanh pow pi lab v).z ≤ 127)) ∧
    ((0 ≤ (exposeLabColor pow lab v).x ∧ (exposeLabColor pow lab v).x ≤ 1) ∧
     (-127 ≤ (exposeLabColor pow lab v).y ∧ (exposeLabColor pow lab v).y ≤ 127) ∧
     (-127 ≤ (exposeLabColor pow lab v).z ∧ (exposeLabColor pow lab v).z ≤ 127)) := by
  constructor
  · unfold contrastLabColor; exact clipLab_mem _
  · unfold exposeLabColor; exact clipLab_mem _

theorem mix_one (x y : α) : mix x y 1 = y := by unfold mix; ring
theorem mix_zero (x y : α) : mix x y 0 = x := by unfold mix; ring
theorem step_of_le {edge x : α} (h : edge ≤ x) : step edge x = 1 := by
  unfold step; exact if_neg (not_lt.mpr h)
theorem step_of_lt {edge x : α} (h : x < edge) : step edge x = 0 := by
  unfold step; exact if_pos h

/-- The result of `rgb2hsv` in the four cases of its two `step` selections. -/
theorem rgb2hsv_cases (c : Vec3 α) :
    (c.z ≤ c.y ∧ c.y ≤ c.x ∧ rgb2hsv c =
      ⟨|0 + (c.y - c.z) / (6 * (c.x - min c.y c.z) + 1.0e-10)|,
        (c.x - min c.y c.z) / (c.x + 1.0e-10), c.x⟩) ∨
    (c.z ≤ c.y ∧ c.x < c.y ∧ rgb2hsv c =
      ⟨|-1 / 3 + (c.x - c.z) / (6 * (c.y - min c.x c.z) + 1.0e-10)|,
        (c.y - min c.x c.z) / (c.y + 1.0e-10), c.y⟩) ∨
    (c.y < c.z ∧ c.z ≤ c.x ∧ rgb2hsv c =
      ⟨|-1 + (c.z - c.y) / (6 * (c.x - min c.z c.y) + 1.0e-10)|,
        (c.x - min c.z c.y) / (c.x + 1.0e-10), c.x⟩) ∨
    (c.y < c.z ∧ c.x < c.z ∧ rgb2hsv c =
      ⟨|2 / 3 + (c.x - c.y) / (6 * (c.z - min c.x c.y) + 1.0e-10)|,
        (c.z - min c.x c.y) / (c.z + 1.0e-10), c.z⟩) := by
  rcases le_or_lt c.z c.y with h1 | h1
  · rcases le_or_lt c.y c.x with h2 | h2
    · left
      refine ⟨h1, h2, ?_⟩
      simp only [rgb2hsv, Vec4.mix, step_of_le h1, mix_one, step_of_le h2]
    · right; left
      refine ⟨h1, h2, ?_⟩
      simp only [rgb2hsv, Vec4.mix, step_of_le h1, mix_one, step_of_lt h2, mix_zero]
  · rcases le_or_lt c.z c.x with h2 | h2
    · right; right; left
      refine ⟨h1, h2, ?_⟩
      simp only [rgb2hsv, Vec4.mix, step_of_lt h1, mix_zero, step_of_le h2, mix_one]
    · right; right; right
      refine ⟨h1, h2, ?_⟩
      simp only [rgb2hsv, Vec4.mix, step_of_lt h1, mix_zero, step_of_lt h2]

theorem fract_eq [FloorRing α] {x : α} (n : ℤ) (h0 : (n : α) ≤ x) (h1 : x < n + 1) :
    fract x = x - n := by
  unfold fract
  have : ⌊x⌋ = n := by rw [Int.floor_eq_iff]; exact ⟨h0, h1⟩
  rw [this]

/-- The hue wave `clamp(|fract(x) * 6 - 3| - 1, 0, 1)` of `hsv2rgb` within `1/6` of an
integer. -/
theorem wave_hi [FloorRing α] {x : α} (n : ℤ) (h0 : (n : α) - 1 / 6 ≤ x) (h1 : x ≤ n + 1 / 6) :
    clamp (|fract x * 6 - 3| - 1) 0 1 = 1 := by
  unfold clamp
  rcases le_or_lt (n : α) x with h | h
  · rw [fract_eq n h (by linarith), abs_of_nonpos (by linarith),
      max_eq_left (by linarith), min_eq_right (by linarith)]
  · have hc : ((n - 1 : ℤ) : α) = (n : α) - 1 := by push_cast; ring
    rw [fract_eq (n - 1) (by rw [hc]; linarith) (by rw [hc]; linarith), hc,
      abs_of_nonneg (by linarith), max_eq_left (by linarith), min_eq_right (by linarith)]

/-- The hue wave on the falling edge `[n + 1/6, n + 1/2]`. -/
theorem wave_down [FloorRing α] {x : α} (n : ℤ) (h0 : (n : α) + 1 / 6 ≤ x)
    (h1 : x ≤ n + 1 / 2) :
    clamp (|fract x * 6 - 3| - 1) 0 1 = max (2 - 6 * (x - n)) 0 := by
  unfold clamp
  rw [fract_eq n (by linarith) (by linarith), abs_of_nonpos (by linarith)]
  have e : -((x - (n : α)) * 6 - 3) - 1 = 2 - 6 * (x - n) := by ring
  rw [e, min_eq_left (max_le (by linarith) zero_le_one)]

/-- The hue wave on the rising edge `[n + 1/2, n + 5/6]`. -/
theorem wave_up [FloorRing α] {x : α} (n : ℤ) (h0 : (n : α) + 1 / 2 ≤ x)
    (h1 : x ≤ n + 5 / 6) :
    clamp (|fract x * 6 - 3| - 1) 0 1 = max (6 * (x - n) - 4) 0 := by
  unfold clamp
  rw [fract_eq n (by linarith) (by linarith), abs_of_nonneg (by linarith)]
  have e : (x - (n : α)) * 6 - 3 - 1 = 6 * (x - n) - 4 := by ring
  rw [e, min_eq_left (max_le (by linarith) zero_le_one)]

/-- The hue offset `(A - B) / (6 d + e)` of `rgb2hsv` is strictly between `-1/6` and `1/6`. -/
theorem hsv_rho_mem {A B V e : α} (hA : A ≤ V) (hB : B ≤ V) (he : 0 < e) :
    -(1 / 6) < (A - B) / (6 * (V - min A B) + e) ∧
      (A - B) / (6 * (V - min A B) + e) < 1 / 6 := by
  have hd : 0 ≤ V - min A B := sub_nonneg.mpr ((min_le_left _ _).trans hA)
  have hpos : 0 < 6 * (V - min A B) + e := by linarith
  have h1 : A - B ≤ V - min A B := by
    rcases le_total A B with h | h
    · rw [min_eq_left h]; linarith
    · rw [min_eq_right h]; linarith
  have h2 : B - A ≤ V - min A B := by
    rcases le_total A B with h | h
    · rw [min_eq_left h]; linarith
    · rw [min_eq_right h]; linarith
  constructor
  · rw [lt_div_iff₀ hpos]; linarith
  · rw [div_lt_iff₀ hpos]; linarith

/-- The error of one rebuilt channel, in terms of its distance `w` to the maximum `V`. -/
theorem hsv_err_core {V d w e : α} (hw0 : 0 ≤ w) (hwd : w ≤ d) (hdM : d ≤ V) (he : 0 < e) :
    |V * mix 1 (6 * (d - w) / (6 * d + e)) (d / (V + e)) - (V - w)| ≤ e := by
  have hd0 : 0 ≤ d := hw0.trans hwd
  have hM0 : 0 ≤ V := hd0.trans hdM
  have hP1 : 0 < 6 * d + e := by linarith
  have hP2 : 0 < V + e := by linarith
  have hP : 0 < (V + e) * (6 * d + e) := mul_pos hP2 hP1
  have key : V * mix 1 (6 * (d - w) / (6 * d + e)) (d / (V + e)) - (V - w) =
      w - V * d * (6 * w + e) / ((V + e) * (6 * d + e)) := by
    unfold mix
    field_simp; ring
  rw [key, abs_le]
  have hMw : 0 ≤ V - w := by linarith
  have hdw : 0 ≤ d - w := by linarith
  constructor
  · have : V * d * (6 * w + e) / ((V + e) * (6 * d + e)) ≤ w + e := by
      rw [div_le_iff₀ hP]
      nlinarith [mul_nonneg (mul_nonneg hw0 hM0) he.le, mul_nonneg (mul_nonneg hw0 hd0) he.le,
        mul_nonneg (mul_nonneg hw0 he.le) he.le, mul_nonneg (mul_nonneg hM0 hd0) he.le,
        mul_nonneg (mul_nonneg hM0 he.le) he.le, mul_nonneg (mul_nonneg hd0 he.le) he.le,
        mul_nonneg (mul_nonneg he.le he.le) he.le]
    linarith
  · have : w - e ≤ V * d * (6 * w + e) / ((V + e) * (6 * d + e)) := by
      rw [le_div_iff₀ hP]
      nlinarith [mul_nonneg (mul_nonneg he.le hM0) hdw, mul_nonneg (mul_nonneg he.le hd0) hMw,
        mul_nonneg (mul_nonneg he.le he.le) hMw, mul_nonneg (mul_nonneg hd0 he.le) he.le,
        mul_nonneg (mul_nonneg he.le he.le) he.le]
    linarith

/-- One channel of `hsv2rgb (rgb2hsv c)` that is not the maximum: the rebuilt value is within
`e` of the channel `x`. -/
theorem hsv_channel_err {x y V e : α} (hx0 : 0 ≤ x) (hy0 : 0 ≤ y) (hx : x ≤ V) (hy : y ≤ V)
    (he : 0 < e) :
    |V * mix 1 (max (6 * ((x - y) / (6 * (V - min x y) + e))) 0)
        ((V - min x y) / (V + e)) - x| ≤ e := by
  have hm0 : 0 ≤ min x y := le_min hx0 hy0
  have hmx : min x y ≤ x := min_le_left _ _
  have hpos : 0 < 6 * (V - min x y) + e := by linarith
  have hk : max (6 * ((x - y) / (6 * (V - min x y) + e))) 0 =
      6 * ((V - min x y) - (V - x)) / (6 * (V - min x y) + e) := by
    rcases le_total x y with h | h
    · rw [min_eq_left h, sub_self, mul_zero, zero_div]
      apply max_eq_right
      apply mul_nonpos_of_nonneg_of_nonpos (by norm_num)
      apply div_nonpos_of_nonpos_of_nonneg (by linarith)
      rw [min_eq_left h] at hpos; exact hpos.le
    · rw [min_eq_right h, mul_div_assoc]
      have e1 : V - y - (V - x) = x - y := by ring
      rw [e1]
      apply max_eq_left
      apply mul_nonneg (by norm_num)
      apply div_nonneg (by linarith)
      rw [min_eq_right h] at hpos; exact hpos.le
  rw [hk]
  have := hsv_err_core (V := V) (d := V - min x y) (w := V - x) (e := e)
    (by linarith) (by linarith) (by linarith) he
  rw [sub_sub_cancel] at this
  exact this

theorem hsv2rgb_x [FloorRing α] (v : Vec3 α) :
    (hsv2rgb v).x = v.z * mix 1 (clamp (|fract (v.x + 1) * 6 - 3| - 1) 0 1) v.y := rfl
theorem hsv2rgb_y [FloorRing α] (v : Vec3 α) :
    (hsv2rgb v).y = v.z * mix 1 (clamp (|fract (v.x + 2 / 3) * 6 - 3| - 1) 0 1) v.y := rfl
theorem hsv2rgb_z [FloorRing α] (v : Vec3 α) :
    (hsv2rgb v).z = v.z * mix 1 (clamp (|fract (v.x + 1 / 3) * 6 - 3| - 1) 0 1) v.y := rfl

/-- The channel that `rgb2hsv` found to be the maximum is rebuilt exactly. -/
theorem hsv_max_channel (V S : α) : V * mix 1 1 S = V := by unfold mix; ring

/-- The second non-maximal channel: the same bound with the roles of `A` and `B` exchanged. -/
theorem hsv_channel_err_neg {A B V e : α} (hA0 : 0 ≤ A) (hB0 : 0 ≤ B) (hA : A ≤ V)
    (hB : B ≤ V) (he : 0 < e) :
    |V * mix 1 (max (6 * -((A - B) / (6 * (V - min A B) + e))) 0)
        ((V - min A B) / (V + e)) - B| ≤ e := by
  have := hsv_channel_err hB0 hA0 hB hA he
  rw [min_comm B A] at this
  rw [← neg_div, neg_sub]
  exact this

theorem wave_sector_a1 [FloorRing α] {ρ : α} (h0 : 0 ≤ ρ) (h1 : ρ < 1 / 6) :
    clamp (|fract (ρ + 1) * 6 - 3| - 1) 0 1 = 1 ∧
    clamp (|fract (ρ + 2 / 3) * 6 - 3| - 1) 0 1 = max (6 * ρ) 0 ∧
    clamp (|fract (ρ + 1 / 3) * 6 - 3| - 1) 0 1 = max (6 * -ρ) 0 := by
  refine ⟨wave_hi 1 (by push_cast; linarith) (by push_cast; linarith), ?_, ?_⟩
  · rw [wave_up 0 (by push_cast; linarith) (by push_cast; linarith)]
    congr 1; push_cast; ring
  · rw [wave_down 0 (by push_cast; linarith) (by push_cast; linarith)]
    congr 1; push_cast; ring

theorem wave_sector_a2 [FloorRing α] {ρ : α} (h0 : -(1 / 6) < ρ) (h1 : ρ < 1 / 6) :
    clamp (|fract (1 / 3 - ρ + 1) * 6 - 3| - 1) 0 1 = max (6 * ρ) 0 ∧
    clamp (|fract (1 / 3 - ρ + 2 / 3) * 6 - 3| - 1) 0 1 = 1 ∧
    clamp (|fract (1 / 3 - ρ + 1 / 3) * 6 - 3| - 1) 0 1 = max (6 * -ρ) 0 := by
  refine ⟨?_, wave_hi 1 (by push_cast; linarith) (by push_cast; linarith), ?_⟩
  · rw [wave_down 1 (by push_cast; linarith) (by push_cast; linarith)]
    congr 1; push_cast; ring
  · rw [wave_up 0 (by push_cast; linarith) (by push_cast; linarith)]
    congr 1; push_cast; ring

theorem wave_sector_b1 [FloorRing α] {ρ : α} (h0 : 0 < ρ) (h1 : ρ < 1 / 6) :
    clamp (|fract (1 - ρ + 1) * 6 - 3| - 1) 0 1 = 1 ∧
    clamp (|fract (1 - ρ + 2 / 3) * 6 - 3| - 1) 0 1 = max (6 * -ρ) 0 ∧
    clamp (|fract (1 - ρ + 1 / 3) * 6 - 3| - 1) 0 1 = max (6 * ρ) 0 := by
  refine ⟨wave_hi 2 (by push_cast; linarith) (by push_cast; linarith), ?_, ?_⟩
  · rw [wave_up 1 (by push_cast; linarith) (by push_cast; linarith)]
    congr 1; push_cast; ring
  · rw [wave_down 1 (by push_cast; linarith) (by push_cast; linarith)]
    congr 1; push_cast; ring

theorem wave_sector_b2 [FloorRing α] {ρ : α} (h0 : -(1 / 6) < ρ) (h1 : ρ < 1 / 6) :
    clamp (|fract (2 / 3 + ρ + 1) * 6 - 3| - 1) 0 1 = max (6 * ρ) 0 ∧
    clamp (|fract (2 / 3 + ρ + 2 / 3) * 6 - 3| - 1) 0 1 = max (6 * -ρ) 0 ∧
    clamp (|fract (2 / 3 + ρ + 1 / 3) * 6 - 3| - 1) 0 1 = 1 := by
  refine ⟨?_, ?_, wave_hi 1 (by push_cast; linarith) (by push_cast; linarith)⟩
  · rw [wave_up 1 (by push_cast; linarith) (by push_cast; linarith)]
    congr 1; push_cast; ring
  · rw [wave_down 1 (by push_cast; linarith) (by push_cast; linarith)]
    congr 1; push_cast; ring

/-- The round trip `hsv2rgb ∘ rgb2hsv` moves every channel of a colour of the unit cube by at
most the epsilon `1e-10` of `rgb2hsv`. -/
theorem hsv_round_trip_eps [FloorRing α] (c : Vec3 α) (hc : c.InUnit) :
    |(hsv2rgb (rgb2hsv c)).x - c.x| ≤ 1.0e-10 ∧ |(hsv2rgb (rgb2hsv c)).y - c.y| ≤ 1.0e-10 ∧
      |(hsv2rgb (rgb2hsv c)).z - c.z| ≤ 1.0e-10 := by
  obtain ⟨⟨r0, -⟩, ⟨g0, -⟩, ⟨b0, -⟩⟩ := hc
  have he : (0 : α) < 1.0e-10 := by norm_num
  have hzero : ∀ t : α, |t - t| ≤ 1.0e-10 := fun t => by rw [sub_self, abs_zero]; exact he.le
  rcases rgb2hsv_cases c with ⟨h1, h2, e⟩ | ⟨h1, h2, e⟩ | ⟨h1, h2, e⟩ | ⟨h1, h2, e⟩
  · obtain ⟨ρ0, ρ1⟩ := hsv_rho_mem (A := c.y) (B := c.z) (V := c.x) h2 (h1.trans h2) he
    have hρ : 0 ≤ (c.y - c.z) / (6 * (c.x - min c.y c.z) + 1.0e-10) :=
      div_nonneg (sub_nonneg.mpr h1)
        (by have := min_le_left c.y c.z; linarith)
    have habs : |0 + (c.y - c.z) / (6 * (c.x - min c.y c.z) + 1.0e-10)| =
        (c.y - c.z) / (6 * (c.x - min c.y c.z) + 1.0e-10) := by
      rw [zero_add, abs_of_nonneg hρ]
    obtain ⟨w1, w2, w3⟩ := wave_sector_a1 hρ ρ1
    rw [e, hsv2rgb_x, hsv2rgb_y, hsv2rgb_z]
    simp only [habs, w1, w2, w3, hsv_max_channel]
    exact ⟨hzero _, hsv_channel_err g0 b0 h2 (h1.trans h2) he,
      hsv_channel_err_neg g0 b0 h2 (h1.trans h2) he⟩
  · obtain ⟨ρ0, ρ1⟩ := hsv_rho_mem (A := c.x) (B := c.z) (V := c.y) h2.le h1 he
    have habs : |-1 / 3 + (c.x - c.z) / (6 * (c.y - min c.x c.z) + 1.0e-10)| =
        1 / 3 - (c.x - c.z) / (6 * (c.y - min c.x c.z) + 1.0e-10) := by
      rw [abs_of_nonpos (by linarith)]; ring
    obtain ⟨w1, w2, w3⟩ := wave_sector_a2 ρ0 ρ1
    rw [e, hsv2rgb_x, hsv2rgb_y, hsv2rgb_z]
    simp only [habs, w1, w2, w3, hsv_max_channel]
    exact ⟨hsv_channel_err r0 b0 h2.le h1 he, hzero _,
      hsv_channel_err_neg r0 b0 h2.le h1 he⟩
  · obtain ⟨ρ0, ρ1⟩ := hsv_rho_mem (A := c.z) (B := c.y) (V := c.x) h2 (h1.le.trans h2) he
    have hρ : 0 < (c.z - c.y) / (6 * (c.x - min c.z c.y) + 1.0e-10) :=
      div_pos (sub_pos.mpr h1)
        (by have := min_le_left c.z c.y; linarith)
    have habs : |-1 + (c.z - c.y) / (6 * (c.x - min c.z c.y) + 1.0e-10)| =
        1 - (c.z - c.y) / (6 * (c.x - min c.z c.y) + 1.0e-10) := by
      rw [abs_of_nonpos (by linarith)]; ring
    obtain ⟨w1, w2, w3⟩ := wave_sector_b1 hρ ρ1
    rw [e, hsv2rgb_x, hsv2rgb_y, hsv2rgb_z]
    simp only [habs, w1, w2, w3, hsv_max_channel]
    exact ⟨hzero _, hsv_channel_err_neg b0 g0 h2 (h1.le.trans h2) he,
      hsv_channel_err b0 g0 h2 (h1.le.trans h2) he⟩
  · obtain ⟨ρ0, ρ1⟩ := hsv_rho_mem (A := c.x) (B := c.y) (V := c.z) h2.le h1.le he
    have habs : |2 / 3 + (c.x - c.y) / (6 * (c.z - min c.x c.y) + 1.0e-10)| =
        2 / 3 + (c.x - c.y) / (6 * (c.z - min c.x c.y) + 1.0e-10) := by
      rw [abs_of_nonneg (by linarith)]
    obtain ⟨w1, w2, w3⟩ := wave_sector_b2 ρ0 ρ1
    rw [e, hsv2rgb_x, hsv2rgb_y, hsv2rgb_z]
    simp only [habs, w1, w2, w3, hsv_max_channel]
    exact ⟨hsv_channel_err r0 g0 h2.le h1.le he, hsv_channel_err_neg r0 g0 h2.le h1.le he,
      hzero _⟩

/-- C6 (HSV round trip): for every colour of the unit cube, each channel of
`hsv2rgb (rgb2hsv c)` is within `1e-4` of the channel of `c`. -/
theorem hsv_round_trip [FloorRing α] (c : Vec3 α) (hc : c.InUnit) :
    |(hsv2rgb (rgb2hsv c)).x - c.x| ≤ 1e-4 ∧ |(hsv2rgb (rgb2hsv c)).y - c.y| ≤ 1e-4 ∧
      |(hsv2rgb (rgb2hsv c)).z - c.z| ≤ 1e-4 := by
  obtain ⟨hx, hy, hz⟩ := hsv_round_trip_eps c hc
  have he : (1.0e-10 : α) ≤ 1e-4 := by norm_num
  exact ⟨hx.trans he, hy.trans he, hz.trans he⟩

/-- Witness of `hsv_round_trip`. -/
theorem hsv_round_trip_witness :
    (⟨3 / 10, 7 / 10, 1 / 5⟩ : Vec3 ℚ).InUnit ∧
    (|(hsv2rgb (rgb2hsv (⟨3 / 10, 7 / 10, 1 / 5⟩ : Vec3 ℚ))).x - 3 / 10| ≤ 1e-4 ∧
     |(hsv2rgb (rgb2hsv (⟨3 / 10, 7 / 10, 1 / 5⟩ : Vec3 ℚ))).y - 7 / 10| ≤ 1e-4 ∧
     |(hsv2rgb (rgb2hsv (⟨3 / 10, 7 / 10, 1 / 5⟩ : Vec3 ℚ))).z - 1 / 5| ≤ 1e-4) :=
  ⟨by norm_num [Vec3.InUnit], hsv_round_trip _ (by norm_num [Vec3.InUnit])⟩
theorem rgb2xyz_eq (pow : α → α → α) (c : Vec3 α) :
    rgb2xyz pow c = Vec3.scale 100 ((rgb2xyzTmp pow c).mulMat
      ⟨⟨0.4124, 0.3576, 0.1805⟩, ⟨0.2126, 0.7152, 0.0722⟩, ⟨0.0193, 0.1192, 0.9505⟩⟩) := rfl

theorem xyz2rgb_eq (pow : α → α → α) (c : Vec3 α) :
    xyz2rgb pow c = ⟨linearToSrgb pow (xyz2rgbV c).x, linearToSrgb pow (xyz2rgbV c).y,
      linearToSrgb pow (xyz2rgbV c).z⟩ := rfl

/-- The vector handed to the encoding transfer in the round trip, as a combination of the
linearised channels `t = tmp`: the product of the two matrices is the identity up to entries
of size at most `4.1e-5`. -/
theorem xyz2rgbV_rgb2xyz (pow : α → α → α) (c : Vec3 α) :
    xyz2rgbV (rgb2xyz pow c) =
      ⟨(rgb2xyzTmp pow c).x * (1 - 0.00000826) + (rgb2xyzTmp pow c).z * 0.00002316,
       (rgb2xyzTmp pow c).x * 0.00002167 + (rgb2xyzTmp pow c).y * (1 + 0.00004032)
         - (rgb2xyzTmp pow c).z * 0.00000794,
       (rgb2xyzTmp pow c).x * 0.00000038 + (rgb2xyzTmp pow c).y * 0.00001192
         + (rgb2xyzTmp pow c).z * (1 + 0.00000355)⟩ := by
  rw [rgb2xyz_eq]
  generalize rgb2xyzTmp pow c = t
  simp only [xyz2rgbV, Vec3.divScalar, Vec3.scale, Vec3.mulMat, Vec3.dot]
  ext
  · simp only; norm_num; ring
  · simp only; norm_num; ring
  · simp only; norm_num; ring


/-- A rational lower bound for a real power with exponent `m / n`, from integer powers. -/
theorem le_rpow_of_pow_le {x y : ℝ} (hx : 0 ≤ x) (hy : 0 ≤ y) (m n : ℕ) (hn : 0 < n)
    (h : y ^ n ≤ x ^ m) : y ≤ x ^ ((m : ℝ) / (n : ℝ)) := by
  have hn' : (n : ℝ) ≠ 0 := Nat.cast_ne_zero.mpr hn.ne'
  have h1 : y = (y ^ n) ^ ((n : ℝ)⁻¹) := by
    rw [← Real.rpow_natCast, ← Real.rpow_mul hy, mul_inv_cancel₀ hn', Real.rpow_one]
  have h2 : x ^ ((m : ℝ) / (n : ℝ)) = (x ^ m) ^ ((n : ℝ)⁻¹) := by
    rw [div_eq_mul_inv, Real.rpow_mul hx, Real.rpow_natCast]
  rw [h1, h2]
  exact Real.rpow_le_rpow (pow_nonneg hy n) h (inv_nonneg.mpr (Nat.cast_nonneg n))

/-- A rational upper bound for a real power with exponent `m / n`, from integer powers. -/
theorem rpow_le_of_pow_le {x y : ℝ} (hx : 0 ≤ x) (hy : 0 ≤ y) (m n : ℕ) (hn : 0 < n)
    (h : x ^ m ≤ y ^ n) : x ^ ((m : ℝ) / (n : ℝ)) ≤ y := by
  have hn' : (n : ℝ) ≠ 0 := Nat.cast_ne_zero.mpr hn.ne'
  have h1 : y = (y ^ n) ^ ((n : ℝ)⁻¹) := by
    rw [← Real.rpow_natCast, ← Real.rpow_mul hy, mul_inv_cancel₀ hn', Real.rpow_one]
  have h2 : x ^ ((m : ℝ) / (n : ℝ)) = (x ^ m) ^ ((n : ℝ)⁻¹) := by
    rw [div_eq_mul_inv, Real.rpow_mul hx, Real.rpow_natCast]
  rw [h1, h2]
  exact Real.rpow_le_rpow (pow_nonneg hx m) h (inv_nonneg.mpr (Nat.cast_nonneg n))

/-- The exponent `2.4` as the quotient `12 / 5`. -/
theorem exp_2_4 : (2.4 : ℝ) = ((12 : ℕ) : ℝ) / ((5 : ℕ) : ℝ) := by norm_num
/-- The exponent `1.4` as the quotient `7 / 5`. -/
theorem exp_1_4 : (1.4 : ℝ) = ((7 : ℕ) : ℝ) / ((5 : ℕ) : ℝ) := by norm_num

/-- The exponents `2.4` and `1.0 / 2.4` of the two transfer functions undo each other. -/
theorem rpow_2_4_inv {y : ℝ} (hy : 0 ≤ y) : (y ^ (2.4 : ℝ)) ^ ((1.0 : ℝ) / 2.4) = y := by
  rw [← Real.rpow_mul hy]
  have : (2.4 : ℝ) * (1.0 / 2.4) = 1 := by norm_num
  rw [this, Real.rpow_one]

/-- The decoded value at the threshold `0.04045` of `rgb2xyz` is at least `0.00313`. -/
theorem num_n1 : (0.00313 : ℝ) ≤ ((0.09545 : ℝ) / 1.055) ^ (2.4 : ℝ) := by
  rw [exp_2_4]
  apply le_rpow_of_pow_le (by norm_num) (by norm_num) 12 5 (by norm_num)
  norm_num

/-- The decoded value at `0.041` is at least `0.00317`. -/
theorem num_n2 : (0.00317 : ℝ) ≤ ((0.096 : ℝ) / 1.055) ^ (2.4 : ℝ) := by
  rw [exp_2_4]
  apply le_rpow_of_pow_le (by norm_num) (by norm_num) 12 5 (by norm_num)
  norm_num

/-- The decoded value at `0.0411` is at least `0.00316`. -/
theorem num_n3a : (0.00316 : ℝ) ≤ ((0.0961 : ℝ) / 1.055) ^ (2.4 : ℝ) := by
  rw [exp_2_4]
  apply le_rpow_of_pow_le (by norm_num) (by norm_num) 12 5 (by norm_num)
  norm_num

/-- The threshold `0.0031308` of `xyz2rgb` encodes to at least `0.09 * 1.055 - 0.055`:
`0.09 ^ 2.4 ≤ 0.0031308`. -/
theorem num_n3b : (0.09 : ℝ) ^ (2.4 : ℝ) ≤ 0.0031308 := by
  rw [exp_2_4]
  apply rpow_le_of_pow_le (by norm_num) (by norm_num) 12 5 (by norm_num)
  norm_num

/-- A lower bound for `x ^ 1.4` at `x = 0.09`. -/
theorem num_n4 : (0.03 : ℝ) ≤ (0.09 : ℝ) ^ (1.4 : ℝ) := by
  rw [exp_1_4]
  apply le_rpow_of_pow_le (by norm_num) (by norm_num) 7 5 (by norm_num)
  norm_num
/-- The linearised channel of a value of `[0, 1]` is in `[0, 1]`. -/
theorem srgbToLinear_mem {c : ℝ} (hc0 : 0 ≤ c) (hc1 : c ≤ 1) :
    0 ≤ srgbToLinear Real.rpow c ∧ srgbToLinear Real.rpow c ≤ 1 := by
  unfold srgbToLinear
  split_ifs with h
  · have hx0 : 0 ≤ (c + 0.055) / 1.055 := by
      apply div_nonneg <;> linarith
    have hx1 : (c + 0.055) / 1.055 ≤ 1 := by
      rw [div_le_one (by norm_num)]; linarith
    exact ⟨Real.rpow_nonneg hx0 _, Real.rpow_le_one hx0 hx1 (by norm_num)⟩
  · constructor
    · apply div_nonneg hc0; norm_num
    · rw [div_le_one (by norm_num)]; linarith

/-- For `x` in `[0.09, 1]`: `x ^ 2.4 = x ^ 1.4 * x` with `0.03 ≤ x ^ 1.4 ≤ 1`. -/
theorem rpow_2_4_split {x : ℝ} (hx0 : 0.09 ≤ x) (hx1 : x ≤ 1) :
    x ^ (2.4 : ℝ) = x ^ (1.4 : ℝ) * x ∧ 0.03 ≤ x ^ (1.4 : ℝ) ∧ x ^ (1.4 : ℝ) ≤ 1 := by
  have hxpos : 0 < x := by linarith
  refine ⟨?_, ?_, ?_⟩
  · have : (2.4 : ℝ) = 1.4 + 1 := by norm_num
    rw [this, Real.rpow_add hxpos, Real.rpow_one]
  · exact num_n4.trans (Real.rpow_le_rpow (by norm_num) hx0 (by norm_num))
  · exact Real.rpow_le_one hxpos.le hx1 (by norm_num)

/-- Convexity (Bernoulli): `x ^ 2.4 + 2.4 * τ * x ^ 1.4 ≤ (x + τ) ^ 2.4`. -/
theorem rpow_2_4_add_ge {x τ : ℝ} (hx0 : 0.09 ≤ x) (hx1 : x ≤ 1) (hτ : 0 ≤ τ) :
    x ^ (2.4 : ℝ) + 2.4 * τ * x ^ (1.4 : ℝ) ≤ (x + τ) ^ (2.4 : ℝ) := by
  have hxpos : 0 < x := by linarith
  obtain ⟨htu, hu0, hu1⟩ := rpow_2_4_split hx0 hx1
  have hq : 0 ≤ τ / x := div_nonneg hτ hxpos.le
  have bern := one_add_mul_self_le_rpow_one_add (s := τ / x) (by linarith) (p := 2.4)
    (by norm_num)
  have e1 : (x + τ) ^ (2.4 : ℝ) = x ^ (2.4 : ℝ) * (1 + τ / x) ^ (2.4 : ℝ) := by
    have : x + τ = x * (1 + τ / x) := by field_simp
    rw [this, Real.mul_rpow hxpos.le (by linarith)]
  have e2 : x ^ (2.4 : ℝ) * (1 + 2.4 * (τ / x)) = x ^ (2.4 : ℝ) + 2.4 * τ * x ^ (1.4 : ℝ) := by
    rw [htu]; field_simp; ring
  rw [e1, ← e2]
  exact mul_le_mul_of_nonneg_left bern (Real.rpow_nonneg hxpos.le _)

/-- The other side: `(x - τ) ^ 2.4 ≤ x ^ 2.4 - τ * x ^ 1.4` for `0 ≤ τ ≤ x`. -/
theorem rpow_2_4_sub_le {x τ : ℝ} (hx0 : 0.09 ≤ x) (hx1 : x ≤ 1) (hτ : 0 ≤ τ) (hτx : τ ≤ x) :
    (x - τ) ^ (2.4 : ℝ) ≤ x ^ (2.4 : ℝ) - τ * x ^ (1.4 : ℝ) := by
  have hxpos : 0 < x := by linarith
  obtain ⟨htu, hu0, hu1⟩ := rpow_2_4_split hx0 hx1
  have hq : 0 ≤ τ / x := div_nonneg hτ hxpos.le
  have hb0 : 0 ≤ 1 - τ / x := by
    rw [sub_nonneg, div_le_one hxpos]; exact hτx
  have hpow : (1 - τ / x) ^ (2.4 : ℝ) ≤ 1 - τ / x := by
    have := Real.rpow_le_rpow_of_exponent_ge' hb0 (by linarith) (by norm_num : (0:ℝ) ≤ 1)
      (by norm_num : (1:ℝ) ≤ 2.4)
    rw [Real.rpow_one] at this
    exact this
  have e1 : (x - τ) ^ (2.4 : ℝ) = x ^ (2.4 : ℝ) * (1 - τ / x) ^ (2.4 : ℝ) := by
    have : x - τ = x * (1 - τ / x) := by field_simp
    rw [this, Real.mul_rpow hxpos.le hb0]
  have e2 : x ^ (2.4 : ℝ) * (1 - τ / x) = x ^ (2.4 : ℝ) - τ * x ^ (1.4 : ℝ) := by
    rw [htu]; field_simp; ring
  rw [e1, ← e2]
  exact mul_le_mul_of_nonneg_left hpow (Real.rpow_nonneg hxpos.le _)

/-- Power branch of both transfers: the encoded value is within `1e-3` of `c`. -/
theorem srgb_channel_pp {c v : ℝ} (hc : 0.04045 < c) (hc1 : c ≤ 1) (hv : 0.0031308 < v)
    (hlo : ((c + 0.055) / 1.055) ^ (2.4 : ℝ) * (1 - 1e-5) - 1e-5 ≤ v)
    (hhi : v ≤ ((c + 0.055) / 1.055) ^ (2.4 : ℝ) * (1 + 5e-5) + 2.5e-5) :
    |1.055 * v ^ ((1.0 : ℝ) / 2.4) - 0.055 - c| ≤ 1e-3 := by
  have hcx : c = 1.055 * ((c + 0.055) / 1.055) - 0.055 := by field_simp
  have hx0 : 0.09 ≤ (c + 0.055) / 1.055 := by
    rw [le_div_iff₀ (by norm_num)]; linarith
  have hx1 : (c + 0.055) / 1.055 ≤ 1 := by
    rw [div_le_one (by norm_num)]; linarith
  generalize (c + 0.055) / 1.055 = x at *
  obtain ⟨htu, hu0, hu1⟩ := rpow_2_4_split hx0 hx1
  have hup := rpow_2_4_add_ge hx0 hx1 (by norm_num : (0:ℝ) ≤ 9e-4)
  have hdn := rpow_2_4_sub_le hx0 hx1 (by norm_num : (0:ℝ) ≤ 9e-4) (by linarith)
  rw [htu] at hlo hhi hup hdn
  generalize x ^ (1.4 : ℝ) = u at *
  have htu' : u * x ≤ u := by nlinarith
  have hv0 : 0 ≤ v := by linarith
  have hup' : v ≤ (x + 9e-4) ^ (2.4 : ℝ) := by linarith
  have hdn' : (x - 9e-4) ^ (2.4 : ℝ) ≤ v := by linarith
  have r1 : v ^ ((1.0 : ℝ) / 2.4) ≤ x + 9e-4 := by
    have := Real.rpow_le_rpow hv0 hup' (by norm_num : (0:ℝ) ≤ 1.0 / 2.4)
    rw [rpow_2_4_inv (by linarith)] at this
    exact this
  have r2 : x - 9e-4 ≤ v ^ ((1.0 : ℝ) / 2.4) := by
    have := Real.rpow_le_rpow (Real.rpow_nonneg (by linarith) _) hdn'
      (by norm_num : (0:ℝ) ≤ 1.0 / 2.4)
    rw [rpow_2_4_inv (by linarith)] at this
    exact this
  rw [abs_le, hcx]
  constructor <;> linarith

/-- Linear decode, power encode: the encoded value is within `1e-3` of `c`. -/
theorem srgb_channel_lp {c v : ℝ} (hc0 : 0 ≤ c) (hc : c ≤ 0.04045) (hv : 0.0031308 < v)
    (hhi : v ≤ c / 12.92 * (1 + 5e-5) + 2.5e-5) :
    |1.055 * v ^ ((1.0 : ℝ) / 2.4) - 0.055 - c| ≤ 1e-3 := by
  have hv0 : 0 ≤ v := by linarith
  have hcl : 0.0401 ≤ c := by
    have : c / 12.92 = c * (1 / 12.92) := by ring
    rw [this] at hhi
    norm_num at hhi hv ⊢
    linarith
  have hvu : v ≤ ((0.0961 : ℝ) / 1.055) ^ (2.4 : ℝ) := by
    refine le_trans ?_ num_n3a
    have : c / 12.92 = c * (1 / 12.92) := by ring
    rw [this] at hhi
    norm_num at hhi hc ⊢
    linarith
  have r1 : v ^ ((1.0 : ℝ) / 2.4) ≤ 0.0961 / 1.055 := by
    have := Real.rpow_le_rpow hv0 hvu (by norm_num : (0:ℝ) ≤ 1.0 / 2.4)
    rw [rpow_2_4_inv (by norm_num)] at this
    exact this
  have r2 : 0.09 ≤ v ^ ((1.0 : ℝ) / 2.4) := by
    have := Real.rpow_le_rpow (Real.rpow_nonneg (by norm_num) _) (num_n3b.trans hv.le)
      (by norm_num : (0:ℝ) ≤ 1.0 / 2.4)
    rw [rpow_2_4_inv (by norm_num)] at this
    exact this
  have e : (1.055 : ℝ) * (0.0961 / 1.055) = 0.0961 := by norm_num
  rw [abs_le]
  constructor <;> nlinarith

/-- Power decode, linear encode: the encoded value is within `1e-3` of `c`. -/
theorem srgb_channel_pl {c v : ℝ} (hc : 0.04045 < c) (hc1 : c ≤ 1) (hv : v ≤ 0.0031308)
    (hlo : ((c + 0.055) / 1.055) ^ (2.4 : ℝ) * (1 - 1e-5) - 1e-5 ≤ v) :
    |12.92 * v - c| ≤ 1e-3 := by
  have hx0 : (0.09545 : ℝ) / 1.055 ≤ (c + 0.055) / 1.055 := by
    apply div_le_div_of_nonneg_right _ (by norm_num); linarith
  have ht : 0.00313 ≤ ((c + 0.055) / 1.055) ^ (2.4 : ℝ) :=
    num_n1.trans (Real.rpow_le_rpow (by norm_num) hx0 (by norm_num))
  have hcu : c ≤ 0.041 := by
    by_contra hcon
    rw [not_le] at hcon
    have hx2 : (0.096 : ℝ) / 1.055 ≤ (c + 0.055) / 1.055 := by
      apply div_le_div_of_nonneg_right _ (by norm_num); linarith
    have ht2 : 0.00317 ≤ ((c + 0.055) / 1.055) ^ (2.4 : ℝ) :=
      num_n2.trans (Real.rpow_le_rpow (by norm_num) hx2 (by norm_num))
    generalize ((c + 0.055) / 1.055) ^ (2.4 : ℝ) = t at *
    norm_num at hlo hv ht2
    linarith
  generalize ((c + 0.055) / 1.055) ^ (2.4 : ℝ) = t at *
  rw [abs_le]
  norm_num at hlo hv ht hc hcu ⊢
  constructor <;> linarith

/-- Both transfers linear: the encoded value is within `1e-3` of `c`. -/
theorem srgb_channel_ll {c v : ℝ} (hc0 : 0 ≤ c) (hc : c ≤ 0.04045)
    (hlo : c / 12.92 * (1 - 1e-5) - 1e-5 ≤ v) (hhi : v ≤ c / 12.92 * (1 + 5e-5) + 2.5e-5) :
    |12.92 * v - c| ≤ 1e-3 := by
  have : c / 12.92 = c * (1 / 12.92) := by ring
  rw [this] at hlo hhi
  rw [abs_le]
  norm_num at hlo hhi hc ⊢
  constructor <;> linarith

/-- One channel of the XYZ round trip: if the value `v` handed to the encoding transfer is the
linearised channel up to a relative error in `[-1e-5, 5e-5]` and an absolute error in
`[-1e-5, 2.5e-5]`, the encoded value is within `1e-3` of the channel. -/
theorem srgb_channel_round_trip {c v : ℝ} (hc0 : 0 ≤ c) (hc1 : c ≤ 1)
    (hlo : srgbToLinear Real.rpow c * (1 - 1e-5) - 1e-5 ≤ v)
    (hhi : v ≤ srgbToLinear Real.rpow c * (1 + 5e-5) + 2.5e-5) :
    |linearToSrgb Real.rpow v - c| ≤ 1e-3 := by
  unfold srgbToLinear at hlo hhi
  unfold linearToSrgb
  simp only [Real.rpow_eq_pow] at hlo hhi ⊢
  by_cases hc : c > 0.04045
  · rw [if_pos hc] at hlo hhi
    by_cases hv : v > 0.0031308
    · rw [if_pos hv]; exact srgb_channel_pp hc hc1 hv hlo hhi
    · rw [if_neg hv]; exact srgb_channel_pl hc hc1 (not_lt.mp hv) hlo
  · rw [if_neg hc] at hlo hhi
    by_cases hv : v > 0.0031308
    · rw [if_pos hv]; exact srgb_channel_lp hc0 (not_lt.mp hc) hv hhi
    · rw [if_neg hv]; exact srgb_channel_ll hc0 (not_lt.mp hc) hlo hhi

/-- The value of `rgb2xyz` on pure red. -/
theorem rgb2xyz_red :
    rgb2xyz Real.rpow (⟨1, 0, 0⟩ : Vec3 ℝ) = ⟨41.24, 21.26, 1.93⟩ := by
  simp only [rgb2xyz, Vec3.scale, Vec3.mulMat, Vec3.dot, Real.rpow_eq_pow]
  norm_num

/-- C5, counterexample (real `pow`): the green channel of `xyz2rgb (rgb2xyz (1, 0, 0))` is
`0.0002799764`, more than `1e-4` away from the green channel 0 of pure red. -/
theorem xyz_round_trip_red_fails :
    (⟨1, 0, 0⟩ : Vec3 ℝ).InUnit ∧
    (xyz2rgb Real.rpow (rgb2xyz Real.rpow (⟨1, 0, 0⟩ : Vec3 ℝ))).y = 0.0002799764 ∧
    ¬ (|(xyz2rgb Real.rpow (rgb2xyz Real.rpow (⟨1, 0, 0⟩ : Vec3 ℝ))).y - 0| ≤ 1e-4) := by
  have h : (xyz2rgb Real.rpow (rgb2xyz Real.rpow (⟨1, 0, 0⟩ : Vec3 ℝ))).y = 0.0002799764 := by
    rw [rgb2xyz_red]
    simp only [xyz2rgb, Vec3.divScalar, Vec3.mulMat, Vec3.dot]
    norm_num
  refine ⟨by norm_num [Vec3.InUnit], h, ?_⟩
  rw [h]; norm_num [abs_le]

/-- C5, amended (real `pow`): for every colour of the unit cube, each channel of
`xyz2rgb (rgb2xyz c)` is within `1e-3` of the channel of `c`. -/
theorem xyz_round_trip_tol (c : Vec3 ℝ) (hc : c.InUnit) :
    |(xyz2rgb Real.rpow (rgb2xyz Real.rpow c)).x - c.x| ≤ 1e-3 ∧
    |(xyz2rgb Real.rpow (rgb2xyz Real.rpow c)).y - c.y| ≤ 1e-3 ∧
    |(xyz2rgb Real.rpow (rgb2xyz Real.rpow c)).z - c.z| ≤ 1e-3 := by
  obtain ⟨⟨x0, x1⟩, ⟨y0, y1⟩, ⟨z0, z1⟩⟩ := hc
  obtain ⟨tx0, tx1⟩ := srgbToLinear_mem x0 x1
  obtain ⟨ty0, ty1⟩ := srgbToLinear_mem y0 y1
  obtain ⟨tz0, tz1⟩ := srgbToLinear_mem z0 z1
  rw [xyz2rgb_eq, xyz2rgbV_rgb2xyz]
  simp only [rgb2xyzTmp]
  refine ⟨?_, ?_, ?_⟩
  · apply srgb_channel_round_trip x0 x1 <;> norm_num <;> linarith
  · apply srgb_channel_round_trip y0 y1 <;> norm_num <;> linarith
  · apply srgb_channel_round_trip z0 z1 <;> norm_num <;> linarith

/-- Witness of `xyz_round_trip_tol` on pure red. -/
theorem xyz_round_trip_tol_witness :
    (⟨1, 0, 0⟩ : Vec3 ℝ).InUnit ∧
    (|(xyz2rgb Real.rpow (rgb2xyz Real.rpow (⟨1, 0, 0⟩ : Vec3 ℝ))).x - 1| ≤ 1e-3 ∧
     |(xyz2rgb Real.rpow (rgb2xyz Real.rpow (⟨1, 0, 0⟩ : Vec3 ℝ))).y - 0| ≤ 1e-3 ∧
     |(xyz2rgb Real.rpow (rgb2xyz Real.rpow (⟨1, 0, 0⟩ : Vec3 ℝ))).z - 0| ≤ 1e-3) :=
  ⟨by norm_num [Vec3.InUnit], xyz_round_trip_tol _ (by norm_num [Vec3.InUnit])⟩


/-- The value of `rgb2xyz` on white. -/
theorem rgb2xyz_white :
    rgb2xyz Real.rpow (⟨1, 1, 1⟩ : Vec3 ℝ) = ⟨95.05, 100, 108.90⟩ := by
  simp only [rgb2xyz, Vec3.scale, Vec3.mulMat, Vec3.dot, Real.rpow_eq_pow]
  norm_num

/-- C11, counterexample (real `pow`): the third component of `rgb2xyz (1, 1, 1)` is `108.90`,
which is `0.01` away from `108.91`. -/
theorem rgb2xyz_white_z_off :
    (rgb2xyz Real.rpow (⟨1, 1, 1⟩ : Vec3 ℝ)).z = 108.90 ∧
    ¬ (|(rgb2xyz Real.rpow (⟨1, 1, 1⟩ : Vec3 ℝ)).x - 95.05| ≤ 5e-4 ∧
       |(rgb2xyz Real.rpow (⟨1, 1, 1⟩ : Vec3 ℝ)).y - 100.00| ≤ 5e-4 ∧
       |(rgb2xyz Real.rpow (⟨1, 1, 1⟩ : Vec3 ℝ)).z - 108.91| ≤ 5e-4) := by
  rw [rgb2xyz_white]
  refine ⟨rfl, ?_⟩
  rintro ⟨-, -, h⟩
  norm_num [abs_le] at h

/-- C11, amended (real `pow`): `rgb2xyz (1, 1, 1) = (95.05, 100.00, 108.90)`, so it agrees with
`(95.05, 100.00, 108.90)` to within `5e-4` in every component. -/
theorem rgb2xyz_white_value :
    rgb2xyz Real.rpow (⟨1, 1, 1⟩ : Vec3 ℝ) = ⟨95.05, 100.00, 108.90⟩ ∧
    |(rgb2xyz Real.rpow (⟨1, 1, 1⟩ : Vec3 ℝ)).x - 95.05| ≤ 5e-4 ∧
    |(rgb2xyz Real.rpow (⟨1, 1, 1⟩ : Vec3 ℝ)).y - 100.00| ≤ 5e-4 ∧
    |(rgb2xyz Real.rpow (⟨1, 1, 1⟩ : Vec3 ℝ)).z - 108.90| ≤ 5e-4 := by
  rw [rgb2xyz_white]
  refine ⟨by norm_num, ?_, ?_, ?_⟩ <;> norm_num [abs_le]

/-- The components of `rgb2xyz` in terms of the linearised channels. -/
theorem rgb2xyz_formula (pow : α → α → α) (c : Vec3 α) :
    rgb2xyz pow c =
      ⟨100 * (0.4124 * srgbToLinear pow c.x + 0.3576 * srgbToLinear pow c.y
          + 0.1805 * srgbToLinear pow c.z),
       100 * (0.2126 * srgbToLinear pow c.x + 0.7152 * srgbToLinear pow c.y
          + 0.0722 * srgbToLinear pow c.z),
       100 * (0.0193 * srgbToLinear pow c.x + 0.1192 * srgbToLinear pow c.y
          + 0.9505 * srgbToLinear pow c.z)⟩ := by
  rw [rgb2xyz_eq]
  simp only [rgb2xyzTmp, Vec3.scale, Vec3.mulMat, Vec3.dot]
  ext <;> simp only <;> ring

/-- C12, counterexample (real `pow`): on pure red `rgb2xyz` returns `(41.24, 21.26, 1.93)`
while the formula of the claim returns `(41.24, 35.76, 18.05)`. -/
theorem rgb2xyz_not_row_major :
    rgb2xyz Real.rpow (⟨1, 0, 0⟩ : Vec3 ℝ) = ⟨41.24, 21.26, 1.93⟩ ∧
    rgb2xyzSpec Real.rpow (⟨1, 0, 0⟩ : Vec3 ℝ) = ⟨41.24, 35.76, 18.05⟩ ∧
    rgb2xyz Real.rpow (⟨1, 0, 0⟩ : Vec3 ℝ) ≠ rgb2xyzSpec Real.rpow (⟨1, 0, 0⟩ : Vec3 ℝ) := by
  have h1 := rgb2xyz_red
  have h2 : rgb2xyzSpec Real.rpow (⟨1, 0, 0⟩ : Vec3 ℝ) = ⟨41.24, 35.76, 18.05⟩ := by
    simp only [rgb2xyzSpec, srgbToLinear, Real.rpow_eq_pow]
    norm_num
  refine ⟨h1, h2, ?_⟩
  rw [h1, h2]
  intro h
  have := congrArg Vec3.y h
  norm_num at this

/-- C12, amended: for every `c` and every `pow`, `rgb2xyz c` is 100 times the product of
the matrix with rows `(0.4124, 0.3576, 0.1805)`, `(0.2126, 0.7152, 0.0722)`,
`(0.0193, 0.1192, 0.9505)` and the column of linearised channels `(R, G, B)`:
`X = 100 * (0.4124 R + 0.3576 G + 0.1805 B)`, `Y = 100 * (0.2126 R + 0.7152 G + 0.0722 B)`,
`Z = 100 * (0.0193 R + 0.1192 G + 0.9505 B)`. -/
theorem rgb2xyz_matrix_convention (pow : α → α → α) (c : Vec3 α) :
    (rgb2xyz pow c).x = 100 * (0.4124 * srgbToLinear pow c.x + 0.3576 * srgbToLinear pow c.y
        + 0.1805 * srgbToLinear pow c.z) ∧
    (rgb2xyz pow c).y = 100 * (0.2126 * srgbToLinear pow c.x + 0.7152 * srgbToLinear pow c.y
        + 0.0722 * srgbToLinear pow c.z) ∧
    (rgb2xyz pow c).z = 100 * (0.0193 * srgbToLinear pow c.x + 0.1192 * srgbToLinear pow c.y
        + 0.9505 * srgbToLinear pow c.z) := by
  rw [rgb2xyz_formula]
  exact ⟨rfl, rfl, rfl⟩

/-- The value of `rgb2hsv` on pure green. -/
theorem rgb2hsv_green_value :
    rgb2hsv (⟨0, 1, 0⟩ : Vec3 α) = ⟨1 / 3, 10000000000 / 10000000001, 1⟩ := by
  rcases rgb2hsv_cases (⟨0, 1, 0⟩ : Vec3 α) with ⟨h1, h2, e⟩ | ⟨h1, h2, e⟩ | ⟨h1, h2, e⟩ |
    ⟨h1, h2, e⟩
  · norm_num at h2
  · rw [e]
    norm_num [abs_of_nonpos]
  · norm_num at h1
  · norm_num at h1

/-- C14: `rgb2hsv (0, 1, 0)` agrees with `(1/3, 1, 1)` to within `5e-4` in every component. -/
theorem rgb2hsv_green :
    |(rgb2hsv (⟨0, 1, 0⟩ : Vec3 α)).x - 1 / 3| ≤ 5e-4 ∧
    |(rgb2hsv (⟨0, 1, 0⟩ : Vec3 α)).y - 1| ≤ 5e-4 ∧
    |(rgb2hsv (⟨0, 1, 0⟩ : Vec3 α)).z - 1| ≤ 5e-4 := by
  rw [rgb2hsv_green_value]
  refine ⟨?_, ?_, ?_⟩ <;> norm_num [abs_le]

/-- C18: `normalizeLab (denormalizeLab c) = c` for every triple `c`. -/
theorem normalize_denormalize (c : Vec3 α) : normalizeLab (denormalizeLab c) = c := by
  unfold normalizeLab denormalizeLab
  ext
  · rfl
  · simp only; norm_num
  · simp only; norm_num

/-- Clamping a clamped value again changes nothing. -/
theorem clamp_idem {x lo hi : α} (h : lo ≤ hi) : clamp (clamp x lo hi) lo hi = clamp x lo hi := by
  obtain ⟨h1, h2⟩ := clamp_mem (x := x) h
  generalize clamp x lo hi = y at *
  unfold clamp
  rw [max_eq_left h1, min_eq_left h2]

/-- C19: `clipLab (clipLab c) = clipLab c` for every triple `c`. -/
theorem clipLab_idempotent (c : Vec3 α) : clipLab (clipLab c) = clipLab c := by
  unfold clipLab
  ext
  · exact clamp_idem zero_le_one
  · exact clamp_idem (by norm_num)
  · exact clamp_idem (by norm_num)


/-- The cube root that `xyz2lab` takes of a ratio `n ≥ 1` lies in `[1, n]`. -/
theorem cbrt_mem {n : ℝ} (hn : 1 ≤ n) :
    1 ≤ n ^ ((1.0 : ℝ) / 3.0) ∧ n ^ ((1.0 : ℝ) / 3.0) ≤ n := by
  constructor
  · exact Real.one_le_rpow hn (by norm_num)
  · have := Real.rpow_le_rpow_of_exponent_le hn (by norm_num : (1.0 : ℝ) / 3.0 ≤ 1)
    rw [Real.rpow_one] at this
    exact this

/-- The value of `rgb2lab` on black, whatever `pow` is (no branch calls it). -/
theorem rgb2lab_black (pow : α → α → α) :
    rgb2lab pow (⟨0, 0, 0⟩ : Vec3 α) = ⟨0, 0.5, 0.5⟩ := by
  have h : rgb2xyz pow (⟨0, 0, 0⟩ : Vec3 α) = ⟨0, 0, 0⟩ := by
    simp only [rgb2xyz, Vec3.scale, Vec3.mulMat, Vec3.dot]
    norm_num
  simp only [rgb2lab, h, xyz2lab]
  norm_num

/-- The value of `rgb2lab` on white in terms of the two cube roots it takes. -/
theorem rgb2lab_white_value :
    rgb2lab Real.rpow (⟨1, 1, 1⟩ : Vec3 ℝ) =
      ⟨1, 0.5 + 0.5 * (500.0 * (((95.05 : ℝ) / 95.047) ^ ((1.0 : ℝ) / 3.0) - 1) / 127.0),
        0.5 + 0.5 * (200.0 * (1 - ((108.90 : ℝ) / 108.883) ^ ((1.0 : ℝ) / 3.0)) / 127.0)⟩ := by
  have h1 : ((95.05 : ℝ) / 95.047 > 0.008856) := by norm_num
  have h2 : ((100 : ℝ) / 100 > 0.008856) := by norm_num
  have h3 : ((108.90 : ℝ) / 108.883 > 0.008856) := by norm_num
  have h4 : ((100 : ℝ) / 100) ^ ((1.0 : ℝ) / 3.0) = 1 := by
    rw [div_self (by norm_num), Real.one_rpow]
  simp only [rgb2lab, rgb2xyz_white, xyz2lab, Real.rpow_eq_pow, if_pos h1, if_pos h2, if_pos h3, h4]
  ext
  · simp only; norm_num
  · simp only
  · simp only

/-- C13 (real `pow`): `rgb2lab (0, 0, 0) = (0, 0.5, 0.5)` exactly, and `rgb2lab (1, 1, 1)`
agrees with `(1.0, 0.5, 0.5)` to within `5e-4` in every component. -/
theorem rgb2lab_gray_axis_ends :
    rgb2lab Real.rpow (⟨0, 0, 0⟩ : Vec3 ℝ) = ⟨0, 0.5, 0.5⟩ ∧
    |(rgb2lab Real.rpow (⟨1, 1, 1⟩ : Vec3 ℝ)).x - 1.0| ≤ 5e-4 ∧
    |(rgb2lab Real.rpow (⟨1, 1, 1⟩ : Vec3 ℝ)).y - 0.5| ≤ 5e-4 ∧
    |(rgb2lab Real.rpow (⟨1, 1, 1⟩ : Vec3 ℝ)).z - 0.5| ≤ 5e-4 := by
  refine ⟨rgb2lab_black _, ?_⟩
  rw [rgb2lab_white_value]
  obtain ⟨a0, a1⟩ := cbrt_mem (n := (95.05 : ℝ) / 95.047) (by norm_num)
  obtain ⟨b0, b1⟩ := cbrt_mem (n := (108.90 : ℝ) / 108.883) (by norm_num)
  generalize ((95.05 : ℝ) / 95.047) ^ ((1.0 : ℝ) / 3.0) = a at *
  generalize ((108.90 : ℝ) / 108.883) ^ ((1.0 : ℝ) / 3.0) = b at *
  simp only [abs_le]
  norm_num at a1 b1 ⊢
  refine ⟨⟨?_, ?_⟩, ⟨?_, ?_⟩⟩ <;> linarith

theorem clamp_of_mem {x lo hi : α} (h1 : lo ≤ x) (h2 : x ≤ hi) : clamp x lo hi = x := by
  unfold clamp
  rw [max_eq_left h1, min_eq_left h2]

/-- On a triple with `L` in `[0, 1]` and `a`, `b` in `[-127, 127]`, `clipLab` changes nothing. -/
theorem clipLab_of_mem {c : Vec3 α} (hL : 0 ≤ c.x ∧ c.x ≤ 1) (ha : -127 ≤ c.y ∧ c.y ≤ 127)
    (hb : -127 ≤ c.z ∧ c.z ≤ 127) : clipLab c = c := by
  unfold clipLab
  rw [clamp_of_mem hL.1 hL.2, clamp_of_mem ha.1 ha.2, clamp_of_mem hb.1 hb.2]

/-- C15: with strength 0, `contrastLabColor` and `exposeLabColor` return their input, for every
Lab value with `L` in `[0, 1]` and `a`, `b` in `[-127, 127]` (whatever `tanh`, `pow`, `pi` are). -/
theorem zero_strength_identity (tanh : α → α) (pow : α → α → α) (pi : α) (lab : Vec3 α)
    (hL : 0 ≤ lab.x ∧ lab.x ≤ 1) (ha : -127 ≤ lab.y ∧ lab.y ≤ 127)
    (hb : -127 ≤ lab.z ∧ lab.z ≤ 127) :
    contrastLabColor tanh pow pi lab 0 = lab ∧ exposeLabColor pow lab 0 = lab := by
  constructor
  · have e : contrastLabColor tanh pow pi lab 0 = clipLab lab := by
      simp only [contrastLabColor, gt_iff_lt, lt_irrefl, if_false, zero_mul, mul_zero, add_zero,
        mul_one]
    rw [e, clipLab_of_mem hL ha hb]
  · have e : exposeLabColor pow lab 0 = clipLab lab := by
      have hmax : max (0.0 : α) 1 = 1 := max_eq_right (by norm_num)
      simp only [exposeLabColor, gt_iff_lt, lt_irrefl, if_false, abs_zero, mul_zero, add_zero,
        sub_zero, hmax, mul_one]
    rw [e, clipLab_of_mem hL ha hb]

/-- Witness of `zero_strength_identity` on the normalized Lab value `(1/2, 1/2, 1/2)`. -/
theorem zero_strength_identity_witness :
    ((0 : ℚ) ≤ 1 / 2 ∧ (1 / 2 : ℚ) ≤ 1) ∧ ((-127 : ℚ) ≤ 1 / 2 ∧ (1 / 2 : ℚ) ≤ 127) ∧
    (contrastLabColor (fun x => x) (fun x _ => x) 3 (⟨1 / 2, 1 / 2, 1 / 2⟩ : Vec3 ℚ) 0
        = ⟨1 / 2, 1 / 2, 1 / 2⟩ ∧
      exposeLabColor (fun x _ => x) (⟨1 / 2, 1 / 2, 1 / 2⟩ : Vec3 ℚ) 0 = ⟨1 / 2, 1 / 2, 1 / 2⟩) :=
  ⟨by norm_num, by norm_num,
    zero_strength_identity (fun x => x) (fun x _ => x) 3 (⟨1 / 2, 1 / 2, 1 / 2⟩ : Vec3 ℚ)
      (by norm_num) (by norm_num) (by norm_num)⟩

/-- The chroma components of `contrastLabColor` with the real `pow`: the input chroma times the
multiplier of the specification, clamped to `[-127, 127]`. -/
theorem contrast_chroma (tanh : ℝ → ℝ) (pi : ℝ) (lab : Vec3 ℝ) (v : ℝ) :
    (contrastLabColor tanh Real.rpow pi lab v).y =
      clamp (lab.y * contrastMultiplierSpec tanh pi lab.x v) (-127) 127 ∧
    (contrastLabColor tanh Real.rpow pi lab v).z =
      clamp (lab.z * contrastMultiplierSpec tanh pi lab.x v) (-127) 127 := by
  have hm : ∀ x : ℝ, clamp (x * (1 + v * (if v > 0 then 1.0 else 0.6) *
      (if v * (if v > 0 then 1.0 else 0.6) > 0 then
        2 * (0.25 - Real.rpow (lab.x + (((tanh (lab.x * pi * 2 - pi) + 1) / 2 + lab.x) / 2
          - lab.x) * (v * (if v > 0 then 1.0 else 0.6)) - 0.5) 2) else 0.35))) (-127) 127 =
      clamp (x * contrastMultiplierSpec tanh pi lab.x v) (-127) 127 := by
    intro x
    congr 2
    unfold contrastMultiplierSpec
    have e : lab.x * pi * 2 = lab.x * 2 * pi := by ring
    by_cases hv : v > 0
    · have hv' : v * 1.0 > 0 := by norm_num; exact hv
      simp only [if_pos hv, if_pos hv', Real.rpow_eq_pow, Real.rpow_two, e]
      norm_num
    · have hv' : ¬ (v * 0.6 > 0) := by
        rw [not_lt] at hv ⊢
        exact mul_nonpos_of_nonpos_of_nonneg hv (by norm_num)
      simp only [if_neg hv, if_neg hv']
  exact ⟨hm lab.y, hm lab.z⟩


/-- C16, counterexample (real `pow`, `tanh`, `π`): for `L = 0.5` and strength `-2000` the
multiplier is `m = -419`, so `0.5 * m = -209.5`, but `contrastLabColor` returns `a = -127`. -/
theorem contrast_achromatic_clipped :
    contrastMultiplierSpec Real.tanh Real.pi 0.5 (-2000) = -419 ∧
    (contrastLabColor Real.tanh Real.rpow Real.pi ⟨0.5, 0.5, 0.5⟩ (-2000)).y = -127 ∧
    (contrastLabColor Real.tanh Real.rpow Real.pi ⟨0.5, 0.5, 0.5⟩ (-2000)).y ≠
      0.5 * contrastMultiplierSpec Real.tanh Real.pi 0.5 (-2000) := by
  have hm : contrastMultiplierSpec Real.tanh Real.pi 0.5 (-2000) = -419 := by
    unfold contrastMultiplierSpec
    norm_num
  have ha : (contrastLabColor Real.tanh Real.rpow Real.pi ⟨0.5, 0.5, 0.5⟩ (-2000)).y = -127 := by
    rw [(contrast_chroma Real.tanh Real.pi ⟨0.5, 0.5, 0.5⟩ (-2000)).1, hm]
    norm_num [clamp]
  refine ⟨hm, ha, ?_⟩
  rw [ha, hm]
  norm_num

/-- C16, amended (real `pow`; any `tanh` and `pi`): for every `L` and every strength `v`, the
`a` and `b` components of `contrastLabColor ((L, 0.5, 0.5), v)` both equal `0.5 * m` clamped to
`[-127, 127]`, hence equal `0.5 * m` whenever `-254 ≤ m ≤ 254`, with `m` the multiplier of the
specification. -/
theorem contrast_achromatic (tanh : ℝ → ℝ) (pi L v : ℝ) :
    ((contrastLabColor tanh Real.rpow pi ⟨L, 0.5, 0.5⟩ v).y =
        clamp (0.5 * contrastMultiplierSpec tanh pi L v) (-127) 127 ∧
      (contrastLabColor tanh Real.rpow pi ⟨L, 0.5, 0.5⟩ v).z =
        clamp (0.5 * contrastMultiplierSpec tanh pi L v) (-127) 127) ∧
    (-254 ≤ contrastMultiplierSpec tanh pi L v ∧ contrastMultiplierSpec tanh pi L v ≤ 254 →
      (contrastLabColor tanh Real.rpow pi ⟨L, 0.5, 0.5⟩ v).y =
        0.5 * contrastMultiplierSpec tanh pi L v ∧
      (contrastLabColor tanh Real.rpow pi ⟨L, 0.5, 0.5⟩ v).z =
        0.5 * contrastMultiplierSpec tanh pi L v) := by
  obtain ⟨h1, h2⟩ := contrast_chroma tanh pi ⟨L, 0.5, 0.5⟩ v
  refine ⟨⟨h1, h2⟩, fun hm => ?_⟩
  have e : clamp (0.5 * contrastMultiplierSpec tanh pi L v) (-127) 127 =
      0.5 * contrastMultiplierSpec tanh pi L v :=
    clamp_of_mem (by linarith [hm.1]) (by linarith [hm.2])
  rw [h1, h2]
  exact ⟨e, e⟩

/-- Witness of `contrast_achromatic` with `tanh = 0`, `pi = 3`, `L = 1/2` and strength 1, where
the multiplier is `3/2`. -/
theorem contrast_achromatic_witness :
    (-254 ≤ contrastMultiplierSpec (fun _ => (0 : ℝ)) 3 (1 / 2) 1 ∧
      contrastMultiplierSpec (fun _ => (0 : ℝ)) 3 (1 / 2) 1 ≤ 254) ∧
    ((contrastLabColor (fun _ => (0 : ℝ)) Real.rpow 3 ⟨1 / 2, 0.5, 0.5⟩ 1).y =
        0.5 * contrastMultiplierSpec (fun _ => (0 : ℝ)) 3 (1 / 2) 1 ∧
      (contrastLabColor (fun _ => (0 : ℝ)) Real.rpow 3 ⟨1 / 2, 0.5, 0.5⟩ 1).z =
        0.5 * contrastMultiplierSpec (fun _ => (0 : ℝ)) 3 (1 / 2) 1) :=
  have h : contrastMultiplierSpec (fun _ => (0 : ℝ)) 3 (1 / 2) 1 = 3 / 2 := by
    unfold contrastMultiplierSpec; norm_num
  ⟨by rw [h]; norm_num,
    (contrast_achromatic (fun _ => 0) 3 (1 / 2) 1).2 (by rw [h]; norm_num)⟩

/-- For `L` in `[0, 1]` the target luminance `1 - (1 - L) ^ 2.8` of a positive exposure is at
least `L`. -/
theorem expose_target_ge {L : ℝ} (h0 : 0 ≤ L) (h1 : L ≤ 1) :
    0 ≤ 1 - (1 - L) ^ (2.8 : ℝ) - L := by
  have := Real.rpow_le_rpow_of_exponent_ge' (sub_nonneg.mpr h1) (by linarith : 1 - L ≤ 1)
    (by norm_num : (0 : ℝ) ≤ 1) (by norm_num : (1 : ℝ) ≤ 2.8)
  rw [Real.rpow_one] at this
  linarith

/-- The luminance returned by `exposeLabColor` (real `pow`) for a strength `v ≥ 0` and `L` in
`[0, 1]`: the luminance moved by `v` times the distance to the target, capped at 1. -/
theorem expose_luminance (lab : Vec3 ℝ) (h0 : 0 ≤ lab.x) (h1 : lab.x ≤ 1) {v : ℝ} (hv : 0 ≤ v) :
    (exposeLabColor Real.rpow lab v).x =
      min (lab.x + (1 - (1 - lab.x) ^ (2.8 : ℝ) - lab.x) * v) 1 := by
  have hd := expose_target_ge h0 h1
  rcases eq_or_lt_of_le hv with h | h
  · subst h
    have e : (exposeLabColor Real.rpow lab 0).x = clamp lab.x 0 1 := by
      simp only [exposeLabColor, clipLab, gt_iff_lt, lt_irrefl, if_false, abs_zero, mul_zero,
        add_zero]
    rw [e, clamp_of_mem h0 h1, mul_zero, add_zero, min_eq_left h1]
  · have e : (exposeLabColor Real.rpow lab v).x =
        clamp (lab.x + (1 - (1 - lab.x) ^ (2.8 : ℝ) - lab.x) * v) 0 1 := by
      simp only [exposeLabColor, clipLab, gt_iff_lt, if_pos h, abs_of_pos h, Real.rpow_eq_pow]
    rw [e]
    unfold clamp
    rw [max_eq_left (by nlinarith)]

/-- C17 (real `pow`): for a Lab value with `L` in `[0, 1]` and strengths `0 ≤ v1 ≤ v2`, the
output luminance of `exposeLabColor` is at least as far from `L` for `v2` as for `v1`. -/
theorem expose_monotone (lab : Vec3 ℝ) (h0 : 0 ≤ lab.x) (h1 : lab.x ≤ 1) (v1 v2 : ℝ)
    (hv1 : 0 ≤ v1) (hv : v1 ≤ v2) :
    |(exposeLabColor Real.rpow lab v2).x - lab.x| ≥
      |(exposeLabColor Real.rpow lab v1).x - lab.x| := by
  have hd := expose_target_ge h0 h1
  rw [expose_luminance lab h0 h1 hv1, expose_luminance lab h0 h1 (hv1.trans hv)]
  generalize 1 - (1 - lab.x) ^ (2.8 : ℝ) - lab.x = d at *
  have a1 : lab.x ≤ min (lab.x + d * v1) 1 := le_min (by nlinarith) h1
  have a2 : min (lab.x + d * v1) 1 ≤ min (lab.x + d * v2) 1 :=
    min_le_min (by nlinarith) (le_refl _)
  rw [ge_iff_le, abs_of_nonneg (by linarith), abs_of_nonneg (by linarith)]
  linarith

/-- Witness of `expose_monotone` on `(1/2, 1/2, 1/2)` with strengths `1/4` and `1`. -/
theorem expose_monotone_witness :
    (0 : ℝ) ≤ 1 / 2 ∧ (1 / 2 : ℝ) ≤ 1 ∧ (0 : ℝ) ≤ 1 / 4 ∧ (1 / 4 : ℝ) ≤ 1 ∧
    |(exposeLabColor Real.rpow (⟨1 / 2, 1 / 2, 1 / 2⟩ : Vec3 ℝ) 1).x - 1 / 2| ≥
      |(exposeLabColor Real.rpow (⟨1 / 2, 1 / 2, 1 / 2⟩ : Vec3 ℝ) (1 / 4)).x - 1 / 2| :=
  ⟨by norm_num, by norm_num, by norm_num, by norm_num,
    expose_monotone ⟨1 / 2, 1 / 2, 1 / 2⟩ (by norm_num) (by norm_num) (1 / 4) 1 (by norm_num)
      (by norm_num)⟩

/-- With the identity as rounding operator, `hue2rgbR` is `hue2rgb`. -/
theorem hue2rgbR_id (p q t : α) : hue2rgbR id p q t = hue2rgb p q t := rfl

/-- With the identity as rounding operator, `hsl2rgbR` is `hsl2rgb`. -/
theorem hsl2rgbR_id (c : Vec3 α) : hsl2rgbR id c = hsl2rgb c := rfl

/-- The value component of `rgb2hsv` on a pure red `(M, 0, 0)` with `M ≥ 0` is `M`. -/
theorem rgb2hsv_red_value {M : α} (hM : 0 ≤ M) : (rgb2hsv ⟨M, 0, 0⟩).z = M := by
  simp only [rgb2hsv, Vec4.mix, step_of_le (le_refl (0 : α)), mix_one, step_of_le hM]

/-- The red channel of `hsv2rgb` on `(0, 1, v)` is `v`. -/
theorem hsv2rgb_red_channel [FloorRing α] (v : α) : (hsv2rgb ⟨0, 1, v⟩).x = v := by
  rw [hsv2rgb_x]
  simp only
  rw [wave_hi 1 (by push_cast; norm_num) (by push_cast; norm_num), hsv_max_channel]

/-- C2, amended: on the unit cube, where clamping to `[0, 1]` changes nothing, `rgb2hsv` and
`hsv2rgb` give the same result on a triple and on the clamped triple; outside the cube the HSV
pair does not saturate: for every `M > 1` the value component of `rgb2hsv (M, 0, 0)` is `M`
while the clamped input gives 1, and for every `v > 1` the red channel of `hsv2rgb (0, 1, v)` is
`v` while the clamped input gives 1. -/
theorem hsv_pair_does_not_saturate [FloorRing α] :
    (∀ c : Vec3 α, c.InUnit →
      rgb2hsv c = rgb2hsv (c.clamp 0 1) ∧ hsv2rgb c = hsv2rgb (c.clamp 0 1)) ∧
    (∀ M : α, 1 < M →
      (rgb2hsv ⟨M, 0, 0⟩).z = M ∧ (rgb2hsv ((⟨M, 0, 0⟩ : Vec3 α).clamp 0 1)).z = 1) ∧
    (∀ v : α, 1 < v →
      (hsv2rgb ⟨0, 1, v⟩).x = v ∧ (hsv2rgb ((⟨0, 1, v⟩ : Vec3 α).clamp 0 1)).x = 1) := by
  have c0 : clamp (0 : α) 0 1 = 0 := clamp_of_mem (le_refl _) zero_le_one
  have c1 : clamp (1 : α) 0 1 = 1 := clamp_of_mem zero_le_one (le_refl _)
  have cM : ∀ M : α, 1 < M → clamp M 0 1 = 1 := by
    intro M hM
    unfold clamp
    rw [max_eq_left (by linarith), min_eq_right hM.le]
  refine ⟨?_, ?_, ?_⟩
  · intro c hc
    rw [Vec3.clamp_zero_one, Vec3.saturate_of_inUnit hc]
    exact ⟨rfl, rfl⟩
  · intro M hM
    refine ⟨rgb2hsv_red_value (by linarith), ?_⟩
    simp only [Vec3.clamp, c0, cM M hM]
    exact rgb2hsv_red_value zero_le_one
  · intro v hv
    refine ⟨hsv2rgb_red_channel v, ?_⟩
    simp only [Vec3.clamp, c0, c1, cM v hv]
    exact hsv2rgb_red_channel 1

/-- Witness of `hsv_pair_does_not_saturate`: a colour of the unit cube, the red `(2, 0, 0)`
and the triple `(0, 1, 2)`. -/
theorem hsv_pair_does_not_saturate_witness :
    (⟨1 / 2, 1 / 4, 1⟩ : Vec3 ℚ).InUnit ∧ (1 : ℚ) < 2 ∧
    (rgb2hsv (⟨1 / 2, 1 / 4, 1⟩ : Vec3 ℚ) = rgb2hsv ((⟨1 / 2, 1 / 4, 1⟩ : Vec3 ℚ).clamp 0 1) ∧
      hsv2rgb (⟨1 / 2, 1 / 4, 1⟩ : Vec3 ℚ) = hsv2rgb ((⟨1 / 2, 1 / 4, 1⟩ : Vec3 ℚ).clamp 0 1)) ∧
    ((rgb2hsv (⟨2, 0, 0⟩ : Vec3 ℚ)).z = 2 ∧
      (rgb2hsv ((⟨2, 0, 0⟩ : Vec3 ℚ).clamp 0 1)).z = 1) ∧
    ((hsv2rgb (⟨0, 1, 2⟩ : Vec3 ℚ)).x = 2 ∧
      (hsv2rgb ((⟨0, 1, 2⟩ : Vec3 ℚ).clamp 0 1)).x = 1) :=
  ⟨by norm_num [Vec3.InUnit], by norm_num,
    (hsv_pair_does_not_saturate (α := ℚ)).1 _ (by norm_num [Vec3.InUnit]),
    (hsv_pair_does_not_saturate (α := ℚ)).2.1 2 (by norm_num),
    (hsv_pair_does_not_saturate (α := ℚ)).2.2 2 (by norm_num)⟩

end Lemmas

end colors
